import Mathlib

/-!
Verification of the DeeBee media renamer core (filename parsing, format
rendering, candidate model, collision-safe rename planning, directory
orchestration).  The Python sources `deebee/rename_common.py` and
`deebee/renamer.py` are shallowly embedded below: strings are `List Char`,
regular-expression operations are specialised recursive functions with the
same search/replace semantics, and the filesystem is an explicit list of
occupied names.
-/

namespace DeeBee

/-! ## Character classes

Character predicates are defined on `Char.toNat` so that proofs can reason
with plain `Nat` arithmetic.  They embed the ASCII behaviour of Python's
`str` methods and `re` classes used by the source. -/

/-- Whitespace, as in Python's `str.split`, `str.strip` and the regex class
`\s` (ASCII range). -/
def isWsChar (c : Char) : Bool :=
  c.toNat = 32 || c.toNat = 9 || c.toNat = 10 || c.toNat = 11 || c.toNat = 12 || c.toNat = 13

/-- ASCII decimal digit, as in the regex class `\d` and `str.isdigit` on
ASCII input. -/
def isDigitChar (c : Char) : Bool :=
  48 ≤ c.toNat && c.toNat ≤ 57

/-- ASCII letter or digit, the `A-Za-z0-9` part of the source's character
classes. -/
def isAlphaNumChar (c : Char) : Bool :=
  (48 ≤ c.toNat && c.toNat ≤ 57) || (65 ≤ c.toNat && c.toNat ≤ 90) || (97 ≤ c.toNat && c.toNat ≤ 122)

/-- Word character for the regex boundary `\b`: letters, digits and
underscore. -/
def isWordChar (c : Char) : Bool :=
  isAlphaNumChar c || c.toNat = 95

/-- The separator class `[ ._-]` used between season and episode markers. -/
def isSepChar (c : Char) : Bool :=
  c.toNat = 32 || c.toNat = 46 || c.toNat = 95 || c.toNat = 45

/-- The class `[\s._-]` trimmed from the end of the stem after removing a
season/episode span (`rename_common.py` line 316). -/
def isTrimChar (c : Char) : Bool :=
  isWsChar c || c.toNat = 46 || c.toNat = 95 || c.toNat = 45

/-- Complement of `INVALID_FILENAME_CHARS = [^A-Za-z0-9_.\- ]`
(`rename_common.py` line 35): the characters that survive sanitisation. -/
def isAllowedChar (c : Char) : Bool :=
  isAlphaNumChar c || c.toNat = 95 || c.toNat = 46 || c.toNat = 45 || c.toNat = 32

/-- ASCII lowercasing of one character, embedding `str.casefold` /
`str.lower` on the ASCII input the source manipulates. -/
def toLowerChar (c : Char) : Char :=
  if 65 ≤ c.toNat ∧ c.toNat ≤ 90 then Char.ofNat (c.toNat + 32) else c

/-- The characters that can appear in a final query: ASCII letters and
digits, underscore, hyphen and space (the allowed class minus the dot,
which is replaced by a space before the class strip runs). -/
def validQueryChar (c : Char) : Bool :=
  isAlphaNumChar c || c.toNat = 95 || c.toNat = 45 || c.toNat = 32

/-- No two adjacent whitespace characters. -/
def noDoubleWs : List Char → Bool
  | a :: b :: t => !(isWsChar a && isWsChar b) && noDoubleWs (b :: t)
  | _ => true

/-- Numeric value of an ASCII digit. -/
def digitVal (c : Char) : Nat := c.toNat - 48

/-- Value of a digit string, as computed by Python's `int` on a string of
ASCII digits. -/
def digitsToNat (l : List Char) : Nat :=
  l.foldl (fun a c => 10 * a + digitVal c) 0

/-! ## Basic string pipeline operations -/

/-- `str.replace(".", " ")` (`rename_common.py` line 319). -/
def dotToSpace (l : List Char) : List Char :=
  l.map (fun c => if c = '.' then ' ' else c)

/-- Single left-to-right pass of `INVALID_FILENAME_CHARS.sub(" ", base)`
(`rename_common.py` line 320): each maximal run of disallowed characters
becomes a single space, emitted at the start of the run.  The flag records
whether the scan is inside such a run. -/
def invalidSubAux : Bool → List Char → List Char
  | _, [] => []
  | inBad, c :: rest =>
    if isAllowedChar c then c :: invalidSubAux false rest
    else (if inBad then [] else [' ']) ++ invalidSubAux true rest

/-- `INVALID_FILENAME_CHARS.sub(" ", base)`. -/
def invalidSubSpace (l : List Char) : List Char :=
  invalidSubAux false l

/-- Single left-to-right pass of `re.sub(r"\s+", " ", base)`
(`rename_common.py` lines 321, 326): each maximal whitespace run becomes a
single space.  The flag records whether the scan is inside a run. -/
def collapseAux : Bool → List Char → List Char
  | _, [] => []
  | inWs, c :: rest =>
    if isWsChar c then (if inWs then [] else [' ']) ++ collapseAux true rest
    else c :: collapseAux false rest

/-- `re.sub(r"\s+", " ", base)`. -/
def collapseWs (l : List Char) : List Char :=
  collapseAux false l

/-- Single pass of Python `str.split()`: accumulate the current token and
emit it at each whitespace boundary, discarding empty pieces. -/
def splitWsAux : List Char → List Char → List (List Char)
  | cur, [] => if cur = [] then [] else [cur]
  | cur, c :: rest =>
    if isWsChar c then (if cur = [] then [] else [cur]) ++ splitWsAux [] rest
    else splitWsAux (cur ++ [c]) rest

/-- Python `str.split()` with no argument: split on whitespace runs,
discarding empty pieces. -/
def splitWs (l : List Char) : List (List Char) :=
  splitWsAux [] l

/-- `" ".join(tokens)`. -/
def joinSpace : List (List Char) → List Char
  | [] => []
  | [t] => t
  | t :: t2 :: ts => t ++ ' ' :: joinSpace (t2 :: ts)

/-- Remove trailing characters satisfying `p`. -/
def dropTrailing (p : Char → Bool) (l : List Char) : List Char :=
  (l.reverse.dropWhile p).reverse

/-- Python `str.strip()`: remove leading and trailing whitespace. -/
def stripStr (l : List Char) : List Char :=
  dropTrailing isWsChar (l.dropWhile isWsChar)

/-- `re.sub(r"[\s._-]+$", "", base)` (`rename_common.py` line 316). -/
def trimTrailingSeps (l : List Char) : List Char :=
  dropTrailing isTrimChar l

/-- `base[:start] + base[end:]`: removal of a matched span
(`rename_common.py` line 315). -/
def removeSpan (l : List Char) (start stop : Nat) : List Char :=
  l.take start ++ l.drop stop

/-! ## Trailing release-token stripping

Embedding of `_strip_trailing_release_tokens` (`rename_common.py`
lines 76-91). -/

/-- The fixed vocabulary `RELEASE_METADATA_TOKENS` (`rename_common.py`
lines 44-73). -/
def releaseMetadataTokens : List (List Char) :=
  [ "480p".data, "720p".data, "1080p".data, "2160p".data, "webdl".data,
    "webrip".data, "web".data, "hdtv".data, "hdrip".data, "bluray".data,
    "brrip".data, "dvdrip".data, "hdr".data, "x264".data, "x265".data,
    "h264".data, "h265".data, "hevc".data, "proper".data, "repack".data,
    "extended".data, "unrated".data, "remux".data, "aac".data, "ac3".data,
    "dts".data, "ddp".data, "atmos".data ]

/-- `token.casefold().replace("-", "")`. -/
def normalizeToken (t : List Char) : List Char :=
  (t.map toLowerChar).filter (fun c => c ≠ '-')

/-- Python `str.isdigit` on ASCII: nonempty and all characters digits. -/
def pyIsDigit (l : List Char) : Bool :=
  !l.isEmpty && l.all isDigitChar

/-- `re.fullmatch(r"\d{3,4}p", normalized)`: three or four digits followed
by the letter p. -/
def isResolutionToken (l : List Char) : Bool :=
  (l.length = 4 || l.length = 5) && l.dropLast.all isDigitChar && l.getLast? = some 'p'

/-- The ddp rule: `normalized.startswith("ddp") and
normalized[3:].replace(".", "").isdigit()`. -/
def isDdpToken (l : List Char) : Bool :=
  l.take 3 = "ddp".data && pyIsDigit ((l.drop 3).filter (fun c => c ≠ '.'))

/-- Whether one whitespace-separated token is popped by the while loop of
`_strip_trailing_release_tokens`. -/
def tokenStrippable (t : List Char) : Bool :=
  let n := normalizeToken t
  isResolutionToken n || isDdpToken n || releaseMetadataTokens.contains n

/-- The while loop, acting on the reversed token list. -/
def stripRevTokens : List (List Char) → List (List Char)
  | [] => []
  | t :: rest => if tokenStrippable t then stripRevTokens rest else t :: rest

/-- `_strip_trailing_release_tokens(value)` (`rename_common.py`
lines 76-91): split on whitespace (the preceding `strip()` only removes
whitespace that `split()` ignores anyway), pop matching tokens from the
end, and re-join with single spaces. -/
def stripTrailingReleaseTokens (value : List Char) : List Char :=
  joinSpace ((stripRevTokens (splitWs value).reverse).reverse)

/-! ## Season/episode regex patterns

Embeddings of the three `SEASON_EPISODE_PATTERNS` (`rename_common.py`
lines 37-43).  Each matcher receives the word-ness of the previous
character (for `\b`) and the text at the current position, and returns
`some (length, season, episode)` on a match.  The quantifiers `\d{1,3}`
and `[ ._-]*` are greedy; because the digit, separator and literal
character classes are pairwise disjoint at each juncture, the greedy
choice with the final `\b` check reproduces the backtracking outcome of
Python's engine. -/

/-- Length of the maximal digit run at the head. -/
def digitRun (l : List Char) : Nat := (l.takeWhile isDigitChar).length

/-- Length of the maximal `[ ._-]` run at the head. -/
def sepRun (l : List Char) : Nat := (l.takeWhile isSepChar).length

/-- Final part shared by all three patterns: one to three digits followed
by a word boundary; returns the digit-run length and the episode value. -/
def matchFinalDigits (l : List Char) : Option (Nat × Nat) :=
  let r := digitRun l
  if 1 ≤ r ∧ r ≤ 3 then
    match l.drop r with
    | [] => some (r, digitsToNat (l.take r))
    | d :: _ => if isWordChar d then none else some (r, digitsToNat (l.take r))
  else none

/-- Pattern `(?i)\bS(?P<season>\d{1,3})[ ._-]*E(?P<episode>\d{1,3})\b`. -/
def matchP1 (prevW : Bool) : List Char → Option (Nat × Nat × Nat)
  | [] => none
  | c :: rest =>
    if prevW then none
    else if c = 'S' ∨ c = 's' then
      let r1 := digitRun rest
      if 1 ≤ r1 ∧ r1 ≤ 3 then
        let season := digitsToNat (rest.take r1)
        let rest2 := rest.drop r1
        let k := sepRun rest2
        match rest2.drop k with
        | e :: rest4 =>
          if e = 'E' ∨ e = 'e' then
            match matchFinalDigits rest4 with
            | some (r2, episode) => some (1 + r1 + k + 1 + r2, season, episode)
            | none => none
          else none
        | [] => none
      else none
    else none

/-- Pattern `(?i)\b(?P<season>\d{1,3})x(?P<episode>\d{1,3})\b`. -/
def matchP2 (prevW : Bool) (l : List Char) : Option (Nat × Nat × Nat) :=
  if prevW then none
  else
    let r1 := digitRun l
    if 1 ≤ r1 ∧ r1 ≤ 3 then
      let season := digitsToNat (l.take r1)
      match l.drop r1 with
      | x :: rest =>
        if x = 'x' ∨ x = 'X' then
          match matchFinalDigits rest with
          | some (r2, episode) => some (r1 + 1 + r2, season, episode)
          | none => none
        else none
      | [] => none
    else none

/-- Case-insensitive literal prefix test. -/
def startsWithCI (pat l : List Char) : Bool :=
  (l.take pat.length).map toLowerChar = pat

/-- Tail of pattern 3 after the `episode`/`ep` keyword:
`[ ._-]*(?P<episode>\d{1,3})\b`; returns consumed length and episode. -/
def matchP3Tail (l : List Char) : Option (Nat × Nat) :=
  let k := sepRun l
  match matchFinalDigits (l.drop k) with
  | some (r, episode) => some (k + r, episode)
  | none => none

/-- Pattern
`(?i)\bseason[ ._-]*(?P<season>\d{1,3})[ ._-]*(?:episode|ep)[ ._-]*(?P<episode>\d{1,3})\b`.
The alternation tries `episode` before `ep`, falling back when the
remainder of the pattern fails. -/
def matchP3 (prevW : Bool) (l : List Char) : Option (Nat × Nat × Nat) :=
  if prevW then none
  else if startsWithCI ("season".data) l then
    let rest := l.drop 6
    let k1 := sepRun rest
    let rest1 := rest.drop k1
    let r1 := digitRun rest1
    if 1 ≤ r1 ∧ r1 ≤ 3 then
      let season := digitsToNat (rest1.take r1)
      let rest2 := rest1.drop r1
      let k2 := sepRun rest2
      let rest3 := rest2.drop k2
      let viaEpisode : Option (Nat × Nat × Nat) :=
        if startsWithCI ("episode".data) rest3 then
          match matchP3Tail (rest3.drop 7) with
          | some (c2, episode) => some (6 + k1 + r1 + k2 + 7 + c2, season, episode)
          | none => none
        else none
      match viaEpisode with
      | some m => some m
      | none =>
        if startsWithCI ("ep".data) rest3 then
          match matchP3Tail (rest3.drop 2) with
          | some (c2, episode) => some (6 + k1 + r1 + k2 + 2 + c2, season, episode)
          | none => none
        else none
    else none
  else none

/-- `pattern.search(base)`: scan start positions left to right, tracking
the word-ness of the previous character for `\b`; return
`(start, stop, season, episode)` for the leftmost match. -/
def searchPat (m : Bool → List Char → Option (Nat × Nat × Nat)) :
    Bool → Nat → List Char → Option (Nat × Nat × Nat × Nat)
  | prevW, pos, [] =>
    (m prevW []).map (fun r => (pos, pos + r.1, r.2.1, r.2.2))
  | prevW, pos, c :: rest =>
    match m prevW (c :: rest) with
    | some (len, s, e) => some (pos, pos + len, s, e)
    | none => searchPat m (isWordChar c) (pos + 1) rest

/-- The `for pattern in SEASON_EPISODE_PATTERNS` loop (`rename_common.py`
lines 298-317): the first pattern with a match anywhere in the stem wins. -/
def findSeasonEpisode (l : List Char) : Option (Nat × Nat × Nat × Nat) :=
  match searchPat matchP1 false 0 l with
  | some r => some r
  | none =>
    match searchPat matchP2 false 0 l with
    | some r => some r
    | none => searchPat matchP3 false 0 l

/-! ## Year-token removal

Embedding of `YEAR_TOKEN_PATTERN.sub(" ", base)` with
`YEAR_TOKEN_PATTERN = re.compile(r"\b(19|20)\d{2}\b")`
(`rename_common.py` lines 36, 325). -/

/-- Match of the year pattern at the current position (the leading `\b` is
checked by the caller via the previous character). -/
def matchYear : List Char → Bool
  | a :: b :: c :: d :: rest =>
    ((a = '1' && b = '9') || (a = '2' && b = '0')) && isDigitChar c && isDigitChar d &&
      (match rest with
       | [] => true
       | x :: _ => !isWordChar x)
  | _ => false

/-- `re.sub` scanning for the year pattern: left to right, non-overlapping,
each match replaced by a single space; after a match the scan resumes at
the match end, whose preceding character in the original string is a
digit. -/
def yearSub : Bool → List Char → List Char
  | _, [] => []
  | prevW, a :: b :: c :: d :: rest2 =>
    if !prevW && matchYear (a :: b :: c :: d :: rest2) then
      ' ' :: yearSub true rest2
    else a :: yearSub (isWordChar a) (b :: c :: d :: rest2)
  | _, a :: rest => a :: yearSub (isWordChar a) rest

/-- Scan deciding whether the year pattern matches anywhere, given the
word-ness of the previous character. -/
def hasYear : Bool → List Char → Bool
  | _, [] => false
  | p, c :: rest => (!p && matchYear (c :: rest)) || hasYear (isWordChar c) rest

/-! ## The filename parser -/

/-- `MediaSearchQuery` (`rename_common.py` lines 108-114). -/
structure MediaSearchQuery where
  query : List Char
  seasonNumber : Option Nat
  episodeNumber : Option Nat
deriving DecidableEq, Repr

/-- The unconditional part of the normalisation pipeline applied after
span removal (`rename_common.py` lines 319-322): dots to spaces,
disallowed characters to spaces, whitespace collapse, trailing
release-token strip. -/
def preQuery (b : List Char) : List Char :=
  stripTrailingReleaseTokens (collapseWs (invalidSubSpace (dotToSpace b)))

/-- The full normalisation pipeline (`rename_common.py` lines 319-328):
the unconditional part, then — when a season/episode pattern was detected
— year removal with another whitespace collapse, then the final strip. -/
def normalizeQuery (stripYears : Bool) (b : List Char) : List Char :=
  stripStr (if stripYears then collapseWs (yearSub false (preQuery b))
    else preQuery b)

/-- `BaseRenamer._prepare_search` on a filename stem (`rename_common.py`
lines 289-331).  The `int()` conversions of the captured groups cannot
fail (each group is one to three ASCII digits), so season and episode are
either both present or both absent. -/
def prepareSearch (stem : List Char) : MediaSearchQuery :=
  match findSeasonEpisode stem with
  | some (start, stop, s, e) =>
    { query := normalizeQuery true (trimTrailingSeps (removeSpan stem start stop))
      seasonNumber := some s
      episodeNumber := some e }
  | none =>
    { query := normalizeQuery false stem
      seasonNumber := none
      episodeNumber := none }

/-- Stem of a filename (`pathlib.PurePath.stem`): the part before the last
dot, provided that dot is neither the first nor the last character. -/
def splitName (name : List Char) : List Char × List Char :=
  match name.reverse.findIdx? (fun c => c = '.') with
  | some j =>
    let i := name.length - 1 - j
    if 0 < i ∧ i < name.length - 1 then (name.take i, name.drop i) else (name, [])
  | none => (name, [])

/-- `path.stem`. -/
def stemOf (name : List Char) : List Char := (splitName name).1

/-- `path.suffix`. -/
def suffixOf (name : List Char) : List Char := (splitName name).2

/-! ## Candidate model and rename formats

Embeddings of `RenameContext`, `RenameFormatSpec`, the built-in format
builders, and the two candidate classes:
`MediaCandidate.proposed_filename` (`rename_common.py` lines 143-156,
without a season/episode marker guarantee) and
`MovieCandidate.proposed_filename` (`renamer.py` lines 245-262, which
appends the marker when the rendered name lacks it). -/

/-- The metadata record consumed by the candidate model: `title`, optional
`year` and optional `episode_title`. -/
structure Metadata where
  title : List Char
  year : Option (List Char)
  episodeTitle : Option (List Char)
deriving DecidableEq, Repr

/-- `RenameContext` (`rename_common.py` lines 94-102). -/
structure RenameContext where
  seriesTitle : List Char
  episodeTitle : Option (List Char)
  year : Option (List Char)
  seasonNumber : Option Nat
  episodeNumber : Option Nat

/-- `RenameFormatSpec` (`rename_common.py` lines 117-130): a key, a label
and a name-builder function. -/
structure RenameFormatSpec where
  key : List Char
  label : List Char
  builder : RenameContext → List Char

/-- `RenameFormatSpec.build_name`: collapse whitespace, strip, and fall
back to the series title when the render is empty. -/
def buildName (spec : RenameFormatSpec) (ctx : RenameContext) : List Char :=
  let name := stripStr (collapseWs (spec.builder ctx))
  if name = [] then ctx.seriesTitle else name

/-- Python truthiness of an optional string: present and nonempty. -/
def optTruthy (o : Option (List Char)) : Bool :=
  match o with
  | none => false
  | some l => !l.isEmpty

/-- Decimal digits with explicit fuel (any fuel above the number of digits
yields the same result; `natDigits` supplies enough). -/
def natDigitsAux : Nat → Nat → List Char
  | 0, _ => []
  | fuel + 1, n =>
    if n < 10 then [Char.ofNat (48 + n)]
    else natDigitsAux fuel (n / 10) ++ [Char.ofNat (48 + n % 10)]

/-- Decimal digits of a natural number, embedding Python `str(n)` inside
an f-string. -/
def natDigits (n : Nat) : List Char :=
  natDigitsAux (n + 1) n

/-- Python `f"{n:02d}"` for a natural number: two-digit zero padding. -/
def pad2 (n : Nat) : List Char :=
  if n < 10 then '0' :: natDigits n else natDigits n

/-- The marker `f"S{season:02d}E{episode:02d}"`. -/
def seMarker (season episode : Nat) : List Char :=
  'S' :: pad2 season ++ 'E' :: pad2 episode

/-- `_format_show_episode_with_numbers` (`tv_renamer.py` lines 25-33,
`renamer.py` lines 140-148). -/
def fmtShowEpisodeNumbers (ctx : RenameContext) : List Char :=
  let parts := [ctx.seriesTitle]
    ++ (if optTruthy ctx.episodeTitle then [ctx.episodeTitle.getD []] else [])
    ++ (match ctx.seasonNumber, ctx.episodeNumber with
        | some s, some e => [seMarker s e]
        | _, _ => [])
  List.intercalate (" - ".data) (parts.filter (fun p => p ≠ []))

/-- `_format_show_with_numbers` (`tv_renamer.py` lines 36-40). -/
def fmtShowNumbers (ctx : RenameContext) : List Char :=
  ctx.seriesTitle ++
    (match ctx.seasonNumber, ctx.episodeNumber with
     | some s, some e => " - ".data ++ seMarker s e
     | _, _ => [])

/-- `_format_show_episode` (`tv_renamer.py` lines 43-46). -/
def fmtShowEpisode (ctx : RenameContext) : List Char :=
  if optTruthy ctx.episodeTitle then
    ctx.seriesTitle ++ " - ".data ++ ctx.episodeTitle.getD []
  else ctx.seriesTitle

/-- `_format_show_only` (`tv_renamer.py` lines 49-50). -/
def fmtShowOnly (ctx : RenameContext) : List Char :=
  ctx.seriesTitle

/-- `_format_movie_title_with_year` (`movie_renamer.py` lines 20-23). -/
def fmtMovieTitleYear (ctx : RenameContext) : List Char :=
  if optTruthy ctx.year then
    ctx.seriesTitle ++ " (".data ++ ctx.year.getD [] ++ ")".data
  else ctx.seriesTitle

/-- `_format_movie_title` (`movie_renamer.py` lines 26-27). -/
def fmtMovieTitle (ctx : RenameContext) : List Char :=
  ctx.seriesTitle

/-- The format registry entries used by concrete checks. -/
def showOnlySpec : RenameFormatSpec :=
  ⟨"show_only".data, "TV Show Name".data, fmtShowOnly⟩

def showNumbersSpec : RenameFormatSpec :=
  ⟨"show_numbers".data, "TV Show Name - S##E##".data, fmtShowNumbers⟩

def showEpisodeNumbersSpec : RenameFormatSpec :=
  ⟨"show_episode_numbers".data, "TV Show Name - Episode Name - S##E##".data,
    fmtShowEpisodeNumbers⟩

def movieTitleSpec : RenameFormatSpec :=
  ⟨"movie_title".data, "Movie Title".data, fmtMovieTitle⟩

def movieTitleYearSpec : RenameFormatSpec :=
  ⟨"movie_title_year".data, "Movie Title (Year)".data, fmtMovieTitleYear⟩

/-- `_sanitize_title` (`rename_common.py` lines 163-166): drop disallowed
characters, collapse whitespace, strip. -/
def sanitizeTitle (t : List Char) : List Char :=
  stripStr (collapseWs (t.filter isAllowedChar))

/-- A candidate binding a file name (all paths share one directory, so a
path is represented by its final name), metadata, a format and the parsed
season/episode numbers. -/
structure Candidate where
  originalName : List Char
  metadata : Metadata
  formatSpec : RenameFormatSpec
  seasonNumber : Option Nat
  episodeNumber : Option Nat

/-- The rename context built by both candidate classes: sanitised title,
sanitised (truthy) episode title, raw year, and the candidate's numbers. -/
def candidateContext (c : Candidate) : RenameContext :=
  { seriesTitle := sanitizeTitle c.metadata.title
    episodeTitle :=
      match c.metadata.episodeTitle with
      | none => none
      | some e => if e.isEmpty then none else some (sanitizeTitle e)
    year := c.metadata.year
    seasonNumber := c.seasonNumber
    episodeNumber := c.episodeNumber }

/-- `MediaCandidate.proposed_filename` (`rename_common.py` lines 143-156):
render the name and append the original extension. -/
def proposedFilenameMedia (c : Candidate) : List Char :=
  buildName c.formatSpec (candidateContext c) ++ suffixOf c.originalName

/-- `MovieCandidate.proposed_filename` (`renamer.py` lines 245-262): as
above, but when both numbers are present and the rendered name does not
contain `S<season:02>E<episode:02>`, append a space and that marker before
the extension. -/
def proposedFilenameMovie (c : Candidate) : List Char :=
  let filename := buildName c.formatSpec (candidateContext c)
  let filename :=
    match c.seasonNumber, c.episodeNumber with
    | some s, some e =>
      if seMarker s e <:+: filename then filename
      else filename ++ ' ' :: seMarker s e
    | _, _ => filename
  filename ++ suffixOf c.originalName

/-! ## Rename planner

Embeddings of the two `_determine_target_path` variants.  The filesystem
is a list of occupied names in the candidate's directory; the unbounded
`while True` probe loop is embedded with explicit fuel, and the theorems
below show that `|fs| + 1` probes always reach a free name. -/

/-- `f"{stem} ({counter}){suffix}"`. -/
def altName (stem suffix : List Char) (counter : Nat) : List Char :=
  stem ++ " (".data ++ natDigits counter ++ ")".data ++ suffix

/-- The `while True` probe loop (`rename_common.py` lines 350-355),
with fuel. -/
def probeLoop (fs : List (List Char)) (stem suffix : List Char) :
    Nat → Nat → Option (List Char × Bool)
  | 0, _ => none
  | fuel + 1, counter =>
    let alternative := altName stem suffix counter
    if alternative ∈ fs then probeLoop fs stem suffix fuel (counter + 1)
    else some (alternative, true)

/-- The counter value at which the probe loop stops, as a function: used
to state the least-free-counter property without an existential. -/
def freeIndexFrom (fs : List (List Char)) (stem suffix : List Char) :
    Nat → Nat → Nat
  | 0, counter => counter
  | fuel + 1, counter =>
    if altName stem suffix counter ∈ fs then
      freeIndexFrom fs stem suffix fuel (counter + 1)
    else counter

/-- The least counter at or above 1 whose alternative name is unoccupied
(reached within `|fs| + 1` probes). -/
def freeIndex (fs : List (List Char)) (stem suffix : List Char) : Nat :=
  freeIndexFrom fs stem suffix (fs.length + 1) 1

/-- `BaseRenamer._determine_target_path` (`rename_common.py`
lines 338-355): equality with the original short-circuits, a free proposed
path is returned unadjusted, otherwise the probe loop runs.  The `getD`
default is dead code: `probeLoop` is proved to succeed within the fuel. -/
def determineTargetPathBase (fs : List (List Char)) (original proposed : List Char) :
    List Char × Bool :=
  if proposed = original then (proposed, false)
  else if proposed ∈ fs then
    (probeLoop fs (stemOf proposed) (suffixOf proposed) (fs.length + 1) 1).getD
      (proposed, true)
  else (proposed, false)

/-- `MovieRenamer._determine_target_path` (`renamer.py` lines 449-463):
same, but without the equality short-circuit. -/
def determineTargetPathMovie (fs : List (List Char)) (proposed : List Char) :
    List Char × Bool :=
  if proposed ∈ fs then
    (probeLoop fs (stemOf proposed) (suffixOf proposed) (fs.length + 1) 1).getD
      (proposed, true)
  else (proposed, false)

/-! ## Directory orchestrators

Embeddings of `BaseRenamer.process_directory` (`rename_common.py`
lines 208-280) and `MovieRenamer.process_directory` (`renamer.py`
lines 325-394).  The external collaborators (search client, interactive
chooser, rename success) are functions supplied in a configuration; the
console output is recorded as a list of events; the actual `rename()`
invocations are recorded separately.  An uncaught `OSError` raised by
`Path.rename` is modelled by `Except.error`, carrying the state reached
so far and the failing file: nothing in either loop catches it. -/

/-- Console reports produced by the per-file pipeline. -/
inductive Ev where
  | noMatches (f : List Char)
  | alreadyMatches (f : List Char)
  | dryRun (f target : List Char)
  | adjusted (f target : List Char)
  | renaming (f target : List Char)
deriving DecidableEq, Repr

/-- External collaborators and the chosen rename format. -/
structure RenamerConfig where
  formatSpec : RenameFormatSpec
  search : List Char → List Metadata
  choice : List Char → List Metadata → Option Metadata
  renameOk : List Char → List Char → Bool

/-- Mutable state threaded through a directory run. -/
structure RunState where
  fs : List (List Char)
  events : List Ev
  selected : List Candidate
  renameCalls : List (List Char × List Char)

/-- One iteration of the `for media_file in media_files` loop of
`BaseRenamer.process_directory` (`rename_common.py` lines 221-278). -/
def processFileBase (cfg : RenamerConfig) (dryRun : Bool) (st : RunState)
    (f : List Char) : Except (RunState × List Char) RunState :=
  let searchInfo := prepareSearch (stemOf f)
  let results := cfg.search searchInfo.query
  if results.isEmpty then
    .ok { st with events := st.events ++ [.noMatches f] }
  else
    match cfg.choice f results with
    | none => .ok st
    | some chosen =>
      let c : Candidate :=
        ⟨f, chosen, cfg.formatSpec, searchInfo.seasonNumber, searchInfo.episodeNumber⟩
      if proposedFilenameMedia c = f then
        .ok { st with events := st.events ++ [.alreadyMatches f] }
      else
        let st1 := { st with selected := st.selected ++ [c] }
        let td := determineTargetPathBase st1.fs f (proposedFilenameMedia c)
        let target := td.1
        let adjusted := td.2
        if dryRun then
          .ok { st1 with
            events := st1.events ++ [.dryRun f target]
              ++ (if adjusted then [.adjusted f target] else []) }
        else
          let st2 := { st1 with
            events := st1.events ++ (if adjusted then [.adjusted f target] else [])
              ++ [.renaming f target]
            renameCalls := st1.renameCalls ++ [(f, target)] }
          if cfg.renameOk f target then
            .ok { st2 with fs := st2.fs.erase f ++ [target] }
          else .error (st2, f)

/-- The file loop of `BaseRenamer.process_directory`: an uncaught rename
failure aborts the remaining queue. -/
def processFilesBase (cfg : RenamerConfig) (dryRun : Bool) :
    List (List Char) → RunState → Except (RunState × List Char) RunState
  | [], st => .ok st
  | f :: rest, st =>
    match processFileBase cfg dryRun st f with
    | .ok st1 => processFilesBase cfg dryRun rest st1
    | .error e => .error e

/-- `BaseRenamer.process_directory` on an already-discovered file list. -/
def processDirectoryBase (cfg : RenamerConfig) (dryRun : Bool)
    (fs files : List (List Char)) : Except (RunState × List Char) RunState :=
  processFilesBase cfg dryRun files ⟨fs, [], [], []⟩

/-- One iteration of the file loop of `MovieRenamer.process_directory`
(`renamer.py` lines 342-392): no already-matches skip, and the planner
variant without the equality short-circuit. -/
def processFileMovie (cfg : RenamerConfig) (dryRun : Bool) (st : RunState)
    (f : List Char) : Except (RunState × List Char) RunState :=
  let searchInfo := prepareSearch (stemOf f)
  let results := cfg.search searchInfo.query
  if results.isEmpty then
    .ok { st with events := st.events ++ [.noMatches f] }
  else
    match cfg.choice f results with
    | none => .ok st
    | some chosen =>
      let c : Candidate :=
        ⟨f, chosen, cfg.formatSpec, searchInfo.seasonNumber, searchInfo.episodeNumber⟩
      let st1 := { st with selected := st.selected ++ [c] }
      let td := determineTargetPathMovie st1.fs (proposedFilenameMovie c)
      let target := td.1
      let adjusted := td.2
      if dryRun then
        .ok { st1 with
          events := st1.events ++ [.dryRun f target]
            ++ (if adjusted then [.adjusted f target] else []) }
      else
        let st2 := { st1 with
          events := st1.events ++ (if adjusted then [.adjusted f target] else [])
            ++ [.renaming f target]
          renameCalls := st1.renameCalls ++ [(f, target)] }
        if cfg.renameOk f target then
          .ok { st2 with fs := st2.fs.erase f ++ [target] }
        else .error (st2, f)

/-- The file loop of `MovieRenamer.process_directory`. -/
def processFilesMovie (cfg : RenamerConfig) (dryRun : Bool) :
    List (List Char) → RunState → Except (RunState × List Char) RunState
  | [], st => .ok st
  | f :: rest, st =>
    match processFileMovie cfg dryRun st f with
    | .ok st1 => processFilesMovie cfg dryRun rest st1
    | .error e => .error e

/-- `MovieRenamer.process_directory` on an already-discovered file list. -/
def processDirectoryMovie (cfg : RenamerConfig) (dryRun : Bool)
    (fs files : List (List Char)) : Except (RunState × List Char) RunState :=
  processFilesMovie cfg dryRun files ⟨fs, [], [], []⟩

/-- Whether a run completed without an uncaught error. -/
def runOk (r : Except (RunState × List Char) RunState) : Bool :=
  match r with
  | .ok _ => true
  | .error _ => false

/-- The rename invocations recorded by a run, aborted or not. -/
def runRenameCalls (r : Except (RunState × List Char) RunState) :
    List (List Char × List Char) :=
  match r with
  | .ok st => st.renameCalls
  | .error (st, _) => st.renameCalls

/-- The final filesystem recorded by a run, aborted or not. -/
def runFs (r : Except (RunState × List Char) RunState) : List (List Char) :=
  match r with
  | .ok st => st.fs
  | .error (st, _) => st.fs

/-- The events recorded by a run, aborted or not. -/
def runEvents (r : Except (RunState × List Char) RunState) : List Ev :=
  match r with
  | .ok st => st.events
  | .error (st, _) => st.events

/-- The original names of the selected candidates of a run. -/
def runSelectedNames (r : Except (RunState × List Char) RunState) :
    List (List Char) :=
  match r with
  | .ok st => st.selected.map (fun c => c.originalName)
  | .error (st, _) => st.selected.map (fun c => c.originalName)

/-! ## Concrete instances used by the checks -/

/-- A TV candidate with the `show_only` format and season 2, episode 3, as
the orchestrator builds for the file `The.Expanse.S02E03.1080p.mkv`. -/
def expanseShowOnlyCandidate : Candidate :=
  ⟨"The.Expanse.S02E03.1080p.mkv".data,
    ⟨"The Expanse".data, some ("2015".data), some ("Static".data)⟩,
    showOnlySpec, some 2, some 3⟩

/-- Metadata for The Matrix. -/
def matrixMetadata : Metadata :=
  ⟨"The Matrix".data, some ("1999".data), none⟩

/-- A configuration whose search always finds The Matrix and whose chooser
picks the first result; renames succeed. -/
def matrixCfg : RenamerConfig :=
  ⟨movieTitleSpec, fun _ => [matrixMetadata], fun _ results => results.head?,
    fun _ _ => true⟩

/-- Metadata whose rendered movie title is `C`. -/
def cMetadata : Metadata :=
  ⟨"C".data, none, none⟩

/-- A configuration that finds a match only for the query `A`, picks the
first result, and whose filesystem rename always fails. -/
def failingRenameCfg : RenamerConfig :=
  ⟨movieTitleSpec,
    fun q => if q = "A".data then [cMetadata] else [],
    fun _ results => results.head?,
    fun _ _ => false⟩

/-! # Theorems

## Decimal representation and the probe loop -/

theorem digitChar_toNat {n : Nat} (h : n < 10) :
    (Char.ofNat (48 + n)).toNat = 48 + n := by
  interval_cases n <;> decide

theorem digitsToNat_append (l : List Char) (c : Char) :
    digitsToNat (l ++ [c]) = 10 * digitsToNat l + digitVal c := by
  simp [digitsToNat, List.foldl_append]

/-- Enough fuel makes `natDigitsAux` compute the decimal digits: reading
them back yields the number. -/
theorem digitsToNat_natDigitsAux :
    ∀ fuel n, n < fuel → digitsToNat (natDigitsAux fuel n) = n := by
  intro fuel
  induction fuel with
  | zero => omega
  | succ fuel ih =>
    intro n hn
    by_cases h : n < 10
    · rw [natDigitsAux, if_pos h]
      have h1 := digitChar_toNat h
      simp [digitsToNat, digitVal, h1]
    · rw [natDigitsAux, if_neg h, digitsToNat_append,
        ih (n / 10) (by omega)]
      have h1 := digitChar_toNat (n := n % 10) (by omega)
      simp only [digitVal, h1]
      omega

theorem digitsToNat_natDigits (n : Nat) : digitsToNat (natDigits n) = n :=
  digitsToNat_natDigitsAux (n + 1) n (Nat.lt_succ_self n)

theorem natDigits_inj {a b : Nat} (h : natDigits a = natDigits b) : a = b := by
  have h2 := congrArg digitsToNat h
  rwa [digitsToNat_natDigits, digitsToNat_natDigits] at h2

/-- Distinct counters give distinct alternative names. -/
theorem altName_inj {stem suffix : List Char} {a b : Nat}
    (h : altName stem suffix a = altName stem suffix b) : a = b := by
  unfold altName at h
  have h1 := List.append_cancel_right h
  have h2 := List.append_cancel_right h1
  exact natDigits_inj (List.append_cancel_left h2)

/-- Pigeonhole: on a finite filesystem not every counter in a run of
`|fs| + 1` consecutive values can be occupied. -/
theorem not_all_counters_occupied :
    ∀ (n : Nat) (fs : List (List Char)), fs.length = n →
      ∀ (stem suffix : List Char) (c : Nat),
        (∀ k, k ≤ fs.length → altName stem suffix (c + k) ∈ fs) → False := by
  intro n
  induction n using Nat.strong_induction_on with
  | _ n ih =>
    intro fs hlen stem suffix c hall
    have h0 : altName stem suffix c ∈ fs := by
      have := hall 0 (Nat.zero_le _)
      simpa using this
    have hpos : 0 < fs.length := List.length_pos.mpr (List.ne_nil_of_mem h0)
    have hlen2 : (fs.erase (altName stem suffix c)).length = fs.length - 1 :=
      List.length_erase_of_mem h0
    refine ih (n - 1) (by omega) (fs.erase (altName stem suffix c)) (by omega)
      stem suffix (c + 1) ?_
    intro k hk
    have hmem : altName stem suffix (c + 1 + k) ∈ fs := by
      have := hall (1 + k) (by omega)
      have he : c + (1 + k) = c + 1 + k := by omega
      rwa [he] at this
    have hne : altName stem suffix (c + 1 + k) ≠ altName stem suffix c := by
      intro heq
      have := altName_inj heq
      omega
    exact (List.mem_erase_of_ne hne).mpr hmem

/-- With a free counter within the fuel, the probe loop returns the least
free counter at or above the starting one, computed by `freeIndexFrom`. -/
theorem probeLoop_spec (fs : List (List Char)) (stem suffix : List Char) :
    ∀ (fuel c : Nat), (∃ k, k < fuel ∧ altName stem suffix (c + k) ∉ fs) →
      c ≤ freeIndexFrom fs stem suffix fuel c ∧
      altName stem suffix (freeIndexFrom fs stem suffix fuel c) ∉ fs ∧
      (∀ m, c ≤ m → m < freeIndexFrom fs stem suffix fuel c →
        altName stem suffix m ∈ fs) ∧
      probeLoop fs stem suffix fuel c =
        some (altName stem suffix (freeIndexFrom fs stem suffix fuel c), true) := by
  intro fuel
  induction fuel with
  | zero =>
    intro c h
    obtain ⟨k, hk, _⟩ := h
    omega
  | succ fuel ih =>
    intro c h
    obtain ⟨k, hk, hfree⟩ := h
    by_cases hc : altName stem suffix c ∈ fs
    · have hk0 : k ≠ 0 := by
        intro h0
        subst h0
        simp at hfree
        exact hfree hc
      have hnext : ∃ k2, k2 < fuel ∧ altName stem suffix (c + 1 + k2) ∉ fs := by
        refine ⟨k - 1, by omega, ?_⟩
        have he : c + 1 + (k - 1) = c + k := by omega
        rwa [he]
      obtain ⟨ha, hb, hm, hp⟩ := ih (c + 1) hnext
      rw [freeIndexFrom, if_pos hc]
      refine ⟨by omega, hb, ?_, ?_⟩
      · intro m hm1 hm2
        rcases Nat.eq_or_lt_of_le hm1 with he | hlt
        · rwa [he] at hc
        · exact hm m hlt hm2
      · rw [probeLoop]
        simpa [hc] using hp
    · rw [freeIndexFrom, if_neg hc]
      refine ⟨Nat.le_refl c, hc, fun m hm1 hm2 => by omega, ?_⟩
      rw [probeLoop]
      simp [hc]

/-- Existence of a free counter within `|fs| + 1` probes. -/
theorem exists_free_counter (fs : List (List Char)) (stem suffix : List Char)
    (c : Nat) : ∃ k, k < fs.length + 1 ∧ altName stem suffix (c + k) ∉ fs := by
  by_contra hno
  push_neg at hno
  exact not_all_counters_occupied fs.length fs rfl stem suffix c
    (fun k hk => hno k (by omega))

/-- C10: for every finite filesystem the collision-probe loop of
`_determine_target_path` terminates: there is a least counter `n ≥ 1`
whose alternative name `<stem> (n)<ext>` is unoccupied, and the loop,
given fuel `|fs| + 1`, stops and returns exactly that name flagged as
adjusted. -/
theorem collision_probe_terminates (fs : List (List Char))
    (stem suffix : List Char) :
    1 ≤ freeIndex fs stem suffix ∧
    altName stem suffix (freeIndex fs stem suffix) ∉ fs ∧
    (∀ m, 1 ≤ m → m < freeIndex fs stem suffix → altName stem suffix m ∈ fs) ∧
    probeLoop fs stem suffix (fs.length + 1) 1 =
      some (altName stem suffix (freeIndex fs stem suffix), true) :=
  probeLoop_spec fs stem suffix (fs.length + 1) 1
    (exists_free_counter fs stem suffix 1)

/-! ## C7: resolve_target -/

/-- C7 counterexample: a candidate whose proposed path equals its original
path and exists on disk.  The claim requires `resolve_target` to return a
numbered alternative with `was_adjusted = true` whenever the proposed path
exists, but `BaseRenamer._determine_target_path` short-circuits on
equality and returns the occupied path unadjusted. -/
theorem resolve_target_counterexample :
    ("Movie.mkv".data ∈ [("Movie.mkv".data)]) ∧
    determineTargetPathBase [("Movie.mkv".data)] ("Movie.mkv".data)
      ("Movie.mkv".data) = ("Movie.mkv".data, false) := by
  exact ⟨by decide, by decide⟩

/-- C7 (amended): for every candidate whose proposed path differs from its
original path, `resolve_target` returns the proposed path unadjusted when
it does not exist on disk, and otherwise the least-numbered free
alternative `<stem> (n)<ext>` with `was_adjusted = true`; when the
proposed path equals the original it is returned unadjusted without
probing, even if it exists on disk. -/
theorem resolve_target_spec (fs : List (List Char))
    (original proposed : List Char) :
    (proposed = original →
      determineTargetPathBase fs original proposed = (proposed, false)) ∧
    (proposed ∉ fs →
      determineTargetPathBase fs original proposed = (proposed, false)) ∧
    (proposed ≠ original → proposed ∈ fs →
      1 ≤ freeIndex fs (stemOf proposed) (suffixOf proposed) ∧
      altName (stemOf proposed) (suffixOf proposed)
        (freeIndex fs (stemOf proposed) (suffixOf proposed)) ∉ fs ∧
      (∀ m, 1 ≤ m → m < freeIndex fs (stemOf proposed) (suffixOf proposed) →
        altName (stemOf proposed) (suffixOf proposed) m ∈ fs) ∧
      determineTargetPathBase fs original proposed =
        (altName (stemOf proposed) (suffixOf proposed)
          (freeIndex fs (stemOf proposed) (suffixOf proposed)), true)) := by
  refine ⟨?_, ?_, ?_⟩
  · intro h
    rw [determineTargetPathBase, if_pos h]
  · intro h
    rw [determineTargetPathBase]
    by_cases he : proposed = original
    · rw [if_pos he]
    · rw [if_neg he, if_neg h]
  · intro hne hmem
    obtain ⟨h1, h2, h3, h4⟩ :=
      collision_probe_terminates fs (stemOf proposed) (suffixOf proposed)
    refine ⟨h1, h2, h3, ?_⟩
    rw [determineTargetPathBase, if_neg hne, if_pos hmem, h4]
    rfl

/-- C7 witness: with `A.mkv` and `A (1).mkv` occupied and proposed path
`A.mkv` for original `B.mkv`, the planner returns `A (2).mkv`, adjusted. -/
theorem resolve_target_spec_witness :
    determineTargetPathBase [("A.mkv".data), ("A (1).mkv".data)]
      ("B.mkv".data) ("A.mkv".data) =
      (altName (stemOf ("A.mkv".data)) (suffixOf ("A.mkv".data))
        (freeIndex [("A.mkv".data), ("A (1).mkv".data)]
          (stemOf ("A.mkv".data)) (suffixOf ("A.mkv".data))), true) ∧
    determineTargetPathBase [("A.mkv".data), ("A (1).mkv".data)]
      ("B.mkv".data) ("A.mkv".data) = ("A (2).mkv".data, true) := by
  have h := (resolve_target_spec [("A.mkv".data), ("A (1).mkv".data)]
    ("B.mkv".data) ("A.mkv".data)).2.2 (by decide) (by decide)
  exact ⟨h.2.2.2, by decide⟩

/-! ## C1: the season/episode marker guarantee -/

/-- C1 counterexample: `MediaCandidate.proposed_filename`
(`rename_common.py`, one of the two cited implementations) performs no
marker append: with the `show_only` format and both numbers present the
proposed filename is `The Expanse.mkv`, which does not contain `S02E03`. -/
theorem marker_guarantee_counterexample :
    expanseShowOnlyCandidate.seasonNumber = some 2 ∧
    expanseShowOnlyCandidate.episodeNumber = some 3 ∧
    proposedFilenameMedia expanseShowOnlyCandidate = "The Expanse.mkv".data ∧
    ¬ (seMarker 2 3 <:+: proposedFilenameMedia expanseShowOnlyCandidate) := by
  exact ⟨by decide, by decide, by decide, by decide⟩

/-- C1 (amended): the guarantee holds for `MovieCandidate.proposed_filename`
(`renamer.py`, the implementation used by the CLI and GUI): whenever both
season and episode numbers are present, the proposed filename contains the
exact substring `S<season:02>E<episode:02>`, for every metadata record and
every format; `MediaCandidate.proposed_filename` (`rename_common.py`)
omits the append, so there the marker is present only when the chosen
format renders it. -/
theorem marker_guarantee_movie (c : Candidate) (s e : Nat)
    (hs : c.seasonNumber = some s) (he : c.episodeNumber = some e) :
    seMarker s e <:+: proposedFilenameMovie c := by
  unfold proposedFilenameMovie
  rw [hs, he]
  by_cases h : seMarker s e <:+: buildName c.formatSpec (candidateContext c)
  · simp only [h, if_pos]
    obtain ⟨u, v, huv⟩ := h
    exact ⟨u, v ++ suffixOf c.originalName, by rw [← huv]; simp⟩
  · simp only [h, if_neg, if_false]
    refine ⟨buildName c.formatSpec (candidateContext c) ++ [' '],
      suffixOf c.originalName, ?_⟩
    simp

/-- C1 witness: for the `show_only` candidate above, the movie
implementation appends the marker. -/
theorem marker_guarantee_movie_witness :
    seMarker 2 3 <:+: proposedFilenameMovie expanseShowOnlyCandidate :=
  marker_guarantee_movie expanseShowOnlyCandidate 2 3 (by decide) (by decide)

/-! ## C8: the ddp rule -/

/-- C8 counterexample: the final token `ddp5` IS stripped, both by
`_strip_trailing_release_tokens` directly and from the query produced by
`_prepare_search`: its remainder after `ddp` is the all-digit string `5`,
so the code's boundary test accepts it. -/
theorem ddp_rule_counterexample :
    stripTrailingReleaseTokens ("Title ddp5".data) = "Title".data ∧
    (prepareSearch ("Show.ddp5".data)).query = "Show".data ∧
    tokenStrippable ("ddp5".data) = true := by
  exact ⟨by decide, by decide, by decide⟩

/-- Tokens wholly made of non-whitespace split as a single piece. -/
theorem splitWsAux_all_nonWs (tok : List Char)
    (h : ∀ c ∈ tok, isWsChar c = false) :
    ∀ cur, splitWsAux cur tok = if cur ++ tok = [] then [] else [cur ++ tok] := by
  induction tok with
  | nil => intro cur; simp [splitWsAux]
  | cons c rest ih =>
    intro cur
    have hc : isWsChar c = false := h c (List.mem_cons_self c rest)
    rw [splitWsAux]
    rw [hc]
    simp only [Bool.false_eq_true, if_false]
    rw [ih (fun x hx => h x (List.mem_cons_of_mem c hx)) (cur ++ [c])]
    have hne : cur ++ c :: rest ≠ [] := by simp
    rw [if_neg (by simp), if_neg hne]
    simp

/-- C8 (amended): a final whitespace-separated token is stripped under the
ddp rule exactly when, after casefolding and removing hyphens, it starts
with `ddp` and the remainder after removing dots is a nonempty all-digit
string.  In particular `ddp5` is stripped, while `ddp.` (empty remainder)
and `ddpx1` (non-digit remainder) are kept. -/
theorem ddp_rule_boundary (ds : List Char) (hne : ds ≠ [])
    (hdig : ∀ c ∈ ds, isDigitChar c = true) :
    stripTrailingReleaseTokens ('Q' :: ' ' :: 'd' :: 'd' :: 'p' :: ds) =
      "Q".data ∧
    stripTrailingReleaseTokens ("Q ddp.".data) = "Q ddp.".data ∧
    stripTrailingReleaseTokens ("Q ddpx1".data) = "Q ddpx1".data := by
  refine ⟨?_, by decide, by decide⟩
  have hnws : ∀ c ∈ 'd' :: 'd' :: 'p' :: ds, isWsChar c = false := by
    intro c hcm
    simp only [List.mem_cons] at hcm
    rcases hcm with rfl | rfl | rfl | hcd
    · decide
    · decide
    · decide
    · have hd := hdig c hcd
      simp only [isDigitChar, Bool.and_eq_true, decide_eq_true_eq] at hd
      simp only [isWsChar, Bool.or_eq_false_iff, decide_eq_false_iff_not]
      omega
  have hsplit : splitWs ('Q' :: ' ' :: 'd' :: 'd' :: 'p' :: ds) =
      [['Q'], 'd' :: 'd' :: 'p' :: ds] := by
    show splitWsAux [] ('Q' :: ' ' :: 'd' :: 'd' :: 'p' :: ds) = _
    rw [splitWsAux]
    rw [show isWsChar 'Q' = false from by decide]
    simp only [Bool.false_eq_true, if_false, List.nil_append]
    rw [splitWsAux]
    rw [show isWsChar ' ' = true from by decide]
    simp only [if_true]
    rw [splitWsAux_all_nonWs _ hnws []]
    simp
  have hnorm : normalizeToken ('d' :: 'd' :: 'p' :: ds) =
      'd' :: 'd' :: 'p' :: ds := by
    unfold normalizeToken
    have hds : ds.map toLowerChar = ds := by
      have h1 : ds.map toLowerChar = ds.map id :=
        List.map_congr_left (fun c hcd => by
          have hd := hdig c hcd
          simp only [isDigitChar, Bool.and_eq_true, decide_eq_true_eq] at hd
          unfold toLowerChar
          rw [if_neg (by omega)]
          rfl)
      rw [h1, List.map_id]
    rw [List.map_cons, List.map_cons, List.map_cons, hds]
    rw [show toLowerChar 'd' = 'd' from by decide,
      show toLowerChar 'p' = 'p' from by decide]
    apply List.filter_eq_self.mpr
    intro c hcm
    simp only [List.mem_cons] at hcm
    rcases hcm with rfl | rfl | rfl | hcd
    · decide
    · decide
    · decide
    · have hd := hdig c hcd
      simp only [isDigitChar, Bool.and_eq_true, decide_eq_true_eq] at hd
      simp only [ne_eq, decide_eq_true_eq]
      intro h
      subst h
      revert hd
      decide
  have hstrip : tokenStrippable ('d' :: 'd' :: 'p' :: ds) = true := by
    unfold tokenStrippable
    rw [hnorm]
    apply Bool.or_eq_true_iff.mpr
    left
    apply Bool.or_eq_true_iff.mpr
    right
    unfold isDdpToken
    apply Bool.and_eq_true_iff.mpr
    constructor
    · have ht : ('d' :: 'd' :: 'p' :: ds).take 3 = "ddp".data := rfl
      rw [ht]
      simp
    · unfold pyIsDigit
      have hfilter : (('d' :: 'd' :: 'p' :: ds).drop 3).filter
          (fun c => c ≠ '.') = ds := by
        simp only [List.drop_succ_cons, List.drop_zero]
        exact List.filter_eq_self.mpr (fun c hcd => by
          have hd := hdig c hcd
          simp only [isDigitChar, Bool.and_eq_true, decide_eq_true_eq] at hd
          simp only [ne_eq, decide_eq_true_eq]
          intro h
          subst h
          revert hd
          decide)
      rw [hfilter]
      apply Bool.and_eq_true_iff.mpr
      exact ⟨by simpa using hne, List.all_eq_true.mpr hdig⟩
  unfold stripTrailingReleaseTokens
  rw [hsplit]
  show joinSpace ((stripRevTokens ['d' :: 'd' :: 'p' :: ds, ['Q']]).reverse) = _
  rw [stripRevTokens, if_pos hstrip, stripRevTokens,
    if_neg (by decide : ¬ tokenStrippable ['Q'] = true)]
  rfl

/-- C8 witness: the boundary theorem applied at the token `ddp5`. -/
theorem ddp_rule_boundary_witness :
    stripTrailingReleaseTokens ("Q ddp5".data) = "Q".data :=
  (ddp_rule_boundary ['5'] (by decide) (by decide)).1

/-! ## C5: dry-run safety -/

/-- In dry-run mode every branch of the per-file pipeline of
`BaseRenamer.process_directory` succeeds without touching the filesystem
or invoking `rename`. -/
theorem processFileBase_dry (cfg : RenamerConfig) (st : RunState)
    (f : List Char) :
    ∃ st2, processFileBase cfg true st f = Except.ok st2 ∧
      st2.fs = st.fs ∧ st2.renameCalls = st.renameCalls := by
  by_cases h1 : (cfg.search (prepareSearch (stemOf f)).query).isEmpty
  · refine ⟨_, by simp only [processFileBase, h1, if_true]; rfl, ?_, ?_⟩ <;> rfl
  · rcases hch : cfg.choice f (cfg.search (prepareSearch (stemOf f)).query)
      with _ | chosen
    · refine ⟨_, by simp only [processFileBase, h1, hch, if_false,
        Bool.false_eq_true]; rfl, ?_, ?_⟩ <;> rfl
    · by_cases heq : proposedFilenameMedia
        ⟨f, chosen, cfg.formatSpec, (prepareSearch (stemOf f)).seasonNumber,
          (prepareSearch (stemOf f)).episodeNumber⟩ = f
      · refine ⟨_, by simp only [processFileBase, h1, hch, heq, if_true,
          Bool.false_eq_true, if_false]; rfl, ?_, ?_⟩ <;> rfl
      · refine ⟨_, by simp only [processFileBase, h1, hch, heq, if_true,
          Bool.false_eq_true, if_false]; rfl, ?_, ?_⟩ <;> rfl

/-- As above, for `MovieRenamer.process_directory`. -/
theorem processFileMovie_dry (cfg : RenamerConfig) (st : RunState)
    (f : List Char) :
    ∃ st2, processFileMovie cfg true st f = Except.ok st2 ∧
      st2.fs = st.fs ∧ st2.renameCalls = st.renameCalls := by
  by_cases h1 : (cfg.search (prepareSearch (stemOf f)).query).isEmpty
  · refine ⟨_, by simp only [processFileMovie, h1, if_true]; rfl, ?_, ?_⟩ <;> rfl
  · rcases hch : cfg.choice f (cfg.search (prepareSearch (stemOf f)).query)
      with _ | chosen
    · refine ⟨_, by simp only [processFileMovie, h1, hch, if_false,
        Bool.false_eq_true]; rfl, ?_, ?_⟩ <;> rfl
    · refine ⟨_, by simp only [processFileMovie, h1, hch, if_true,
        Bool.false_eq_true, if_false]; rfl, ?_, ?_⟩ <;> rfl

/-- Dry-run file loop of the base orchestrator: succeeds and preserves the
filesystem and the (empty) list of rename invocations. -/
theorem processFilesBase_dry (cfg : RenamerConfig) :
    ∀ (files : List (List Char)) (st : RunState),
      ∃ st2, processFilesBase cfg true files st = Except.ok st2 ∧
        st2.fs = st.fs ∧ st2.renameCalls = st.renameCalls := by
  intro files
  induction files with
  | nil => exact fun st => ⟨st, rfl, rfl, rfl⟩
  | cons f rest ih =>
    intro st
    obtain ⟨st1, h1, hfs1, hrc1⟩ := processFileBase_dry cfg st f
    obtain ⟨st2, h2, hfs2, hrc2⟩ := ih st1
    refine ⟨st2, ?_, by rw [hfs2, hfs1], by rw [hrc2, hrc1]⟩
    simp only [processFilesBase, h1]
    exact h2

/-- Dry-run file loop of the movie orchestrator. -/
theorem processFilesMovie_dry (cfg : RenamerConfig) :
    ∀ (files : List (List Char)) (st : RunState),
      ∃ st2, processFilesMovie cfg true files st = Except.ok st2 ∧
        st2.fs = st.fs ∧ st2.renameCalls = st.renameCalls := by
  intro files
  induction files with
  | nil => exact fun st => ⟨st, rfl, rfl, rfl⟩
  | cons f rest ih =>
    intro st
    obtain ⟨st1, h1, hfs1, hrc1⟩ := processFileMovie_dry cfg st f
    obtain ⟨st2, h2, hfs2, hrc2⟩ := ih st1
    refine ⟨st2, ?_, by rw [hfs2, hfs1], by rw [hrc2, hrc1]⟩
    simp only [processFilesMovie, h1]
    exact h2

/-- C5: with `dry_run = true` neither `process_directory` implementation
ever invokes the filesystem rename operation — for every configuration
(hence every format and every collision state) the run completes, the list
of `rename` invocations is empty, and the directory contents are
unchanged. -/
theorem dry_run_never_renames (cfg : RenamerConfig)
    (fs files : List (List Char)) :
    runOk (processDirectoryBase cfg true fs files) = true ∧
    runRenameCalls (processDirectoryBase cfg true fs files) = [] ∧
    runFs (processDirectoryBase cfg true fs files) = fs ∧
    runOk (processDirectoryMovie cfg true fs files) = true ∧
    runRenameCalls (processDirectoryMovie cfg true fs files) = [] ∧
    runFs (processDirectoryMovie cfg true fs files) = fs := by
  obtain ⟨stB, hB, hBfs, hBrc⟩ :=
    processFilesBase_dry cfg files ⟨fs, [], [], []⟩
  obtain ⟨stM, hM, hMfs, hMrc⟩ :=
    processFilesMovie_dry cfg files ⟨fs, [], [], []⟩
  unfold processDirectoryBase processDirectoryMovie
  rw [hB, hM]
  exact ⟨rfl, hBrc, hBfs, rfl, hMrc, hMfs⟩

/-! ## C4: already-matching candidates -/

/-- C4 counterexample: `MovieRenamer.process_directory` (`renamer.py`, one
of the two cited orchestrators, and the one used by the CLI and GUI) does
not skip a candidate whose proposed path equals its original path: in a
non-dry run the file `The Matrix.mkv`, already in the target format, is
selected, presented, and renamed to `The Matrix (1).mkv`. -/
theorem already_matches_counterexample :
    runSelectedNames (processDirectoryMovie matrixCfg false
      [("The Matrix.mkv".data)] [("The Matrix.mkv".data)]) =
      [("The Matrix.mkv".data)] ∧
    runRenameCalls (processDirectoryMovie matrixCfg false
      [("The Matrix.mkv".data)] [("The Matrix.mkv".data)]) =
      [(("The Matrix.mkv".data), ("The Matrix (1).mkv".data))] ∧
    Ev.alreadyMatches ("The Matrix.mkv".data) ∉
      runEvents (processDirectoryMovie matrixCfg false
        [("The Matrix.mkv".data)] [("The Matrix.mkv".data)]) ∧
    runFs (processDirectoryMovie matrixCfg false
      [("The Matrix.mkv".data)] [("The Matrix.mkv".data)]) =
      [("The Matrix (1).mkv".data)] := by
  exact ⟨by decide, by decide, by decide, by decide⟩

/-- C4 (amended): `BaseRenamer.process_directory` (`rename_common.py`, the
spec's designated final variant) skips a selected candidate whose proposed
path equals its original path before presenting any rename: the file is
reported as already matching, it is not added to the selected list, no
rename call and no dry-run presentation is made for it, and the
filesystem is untouched — in both dry and non-dry runs.  The superseded
`MovieRenamer.process_directory` lacks this skip. -/
theorem already_matches_skipped (cfg : RenamerConfig) (dryRun : Bool)
    (st : RunState) (f : List Char) (m : Metadata)
    (hres : (cfg.search (prepareSearch (stemOf f)).query).isEmpty = false)
    (hch : cfg.choice f (cfg.search (prepareSearch (stemOf f)).query) = some m)
    (heq : proposedFilenameMedia
      ⟨f, m, cfg.formatSpec, (prepareSearch (stemOf f)).seasonNumber,
        (prepareSearch (stemOf f)).episodeNumber⟩ = f) :
    processFileBase cfg dryRun st f =
      Except.ok { st with events := st.events ++ [Ev.alreadyMatches f] } := by
  simp only [processFileBase, hres, hch, heq, if_true, Bool.false_eq_true,
    if_false]

/-- C4 witness: the base orchestrator skips `The Matrix.mkv` when the
chosen metadata renders to the same name. -/
theorem already_matches_skipped_witness :
    processFileBase matrixCfg false
      ⟨[("The Matrix.mkv".data)], [], [], []⟩ ("The Matrix.mkv".data) =
      Except.ok ⟨[("The Matrix.mkv".data)],
        [Ev.alreadyMatches ("The Matrix.mkv".data)], [], []⟩ :=
  already_matches_skipped matrixCfg false
    ⟨[("The Matrix.mkv".data)], [], [], []⟩ ("The Matrix.mkv".data)
    matrixMetadata (by decide) (by rfl) (by decide)

/-! ## C2: rename failure propagation -/

/-- C2 counterexample: with two files `A.mkv` and `B.mkv` and a failing
filesystem rename, the run aborts on `A.mkv` with an uncaught error:
no failure report is emitted, and `B.mkv` — whose processing would emit a
no-matches report — is never processed. -/
theorem rename_error_counterexample :
    runOk (processDirectoryBase failingRenameCfg false
      [("A.mkv".data), ("B.mkv".data)] [("A.mkv".data), ("B.mkv".data)]) =
      false ∧
    runEvents (processDirectoryBase failingRenameCfg false
      [("A.mkv".data), ("B.mkv".data)] [("A.mkv".data), ("B.mkv".data)]) =
      [Ev.renaming ("A.mkv".data) ("C.mkv".data)] ∧
    Ev.noMatches ("B.mkv".data) ∉
      runEvents (processDirectoryBase failingRenameCfg false
        [("A.mkv".data), ("B.mkv".data)] [("A.mkv".data), ("B.mkv".data)]) ∧
    runOk (processDirectoryBase failingRenameCfg false
      [("A.mkv".data), ("B.mkv".data)] [("B.mkv".data)]) = true := by
  exact ⟨by decide, by decide, by decide, by decide⟩

/-- C2 (amended): a filesystem rename failure is not caught by either
`process_directory` loop: when the per-file pipeline of the head file ends
in a rename error, the whole directory run returns that same error, for
every remaining queue — the remaining files are never processed. -/
theorem rename_error_aborts (cfg : RenamerConfig) (st : RunState)
    (f : List Char) (e : RunState × List Char) :
    (processFileBase cfg false st f = Except.error e →
      ∀ rest, processFilesBase cfg false (f :: rest) st = Except.error e) ∧
    (processFileMovie cfg false st f = Except.error e →
      ∀ rest, processFilesMovie cfg false (f :: rest) st = Except.error e) := by
  constructor
  · intro h rest
    simp only [processFilesBase, h]
  · intro h rest
    simp only [processFilesMovie, h]

/-- C2 witness: the aborting run above, reconstructed by applying the
abort theorem to the failing head file. -/
theorem rename_error_aborts_witness :
    processFilesBase failingRenameCfg false
      [("A.mkv".data), ("B.mkv".data)]
      ⟨[("A.mkv".data), ("B.mkv".data)], [], [], []⟩ =
      Except.error
        (⟨[("A.mkv".data), ("B.mkv".data)],
          [Ev.renaming ("A.mkv".data) ("C.mkv".data)],
          [⟨("A.mkv".data), cMetadata, failingRenameCfg.formatSpec, none, none⟩],
          [(("A.mkv".data), ("C.mkv".data))]⟩, ("A.mkv".data)) :=
  (rename_error_aborts failingRenameCfg
    ⟨[("A.mkv".data), ("B.mkv".data)], [], [], []⟩ ("A.mkv".data) _).1
    (by rfl) [("B.mkv".data)]

/-! ## Year-token lemmas (for C6)

The goal is that after `YEAR_TOKEN_PATTERN.sub(" ", base)` and the
following whitespace collapse and strip, no year token is left anywhere in
the query.  The proofs trace matches through each scanning pass. -/

theorem digit_isWord {c : Char} (h : isDigitChar c = true) :
    isWordChar c = true := by
  simp only [isDigitChar, Bool.and_eq_true, decide_eq_true_eq] at h
  simp only [isWordChar, isAlphaNumChar, Bool.or_eq_true, Bool.and_eq_true,
    decide_eq_true_eq]
  omega

theorem ws_not_word {c : Char} (h : isWsChar c = true) :
    isWordChar c = false := by
  simp only [isWsChar, Bool.or_eq_true, decide_eq_true_eq] at h
  simp only [isWordChar, isAlphaNumChar, Bool.or_eq_false_iff,
    Bool.and_eq_false_iff, decide_eq_false_iff_not]
  omega

/-- A year match needs at least four characters. -/
theorem matchYear_shape {l : List Char} (h : matchYear l = true) :
    ∃ x y z w t, l = x :: y :: z :: w :: t := by
  match l with
  | x :: y :: z :: w :: t => exact ⟨x, y, z, w, t, rfl⟩
  | [] => simp [matchYear] at h
  | [_] => simp [matchYear] at h
  | [_, _] => simp [matchYear] at h
  | [_, _, _] => simp [matchYear] at h

theorem matchYear_head {x : Char} {t : List Char}
    (h : matchYear (x :: t) = true) : x = '1' ∨ x = '2' := by
  obtain ⟨a, b, c, d, r, he⟩ := matchYear_shape h
  obtain ⟨rfl, rfl⟩ : x = a ∧ t = b :: c :: d :: r := by
    injection he with h1 h2; exact ⟨h1, h2⟩
  simp only [matchYear, Bool.and_eq_true, Bool.or_eq_true,
    decide_eq_true_eq] at h
  rcases h.1.1.1 with ⟨h1, _⟩ | ⟨h1, _⟩
  · exact Or.inl h1
  · exact Or.inr h1

theorem matchYear_second {x y : Char} {t : List Char}
    (h : matchYear (x :: y :: t) = true) : y = '9' ∨ y = '0' := by
  obtain ⟨a, b, c, d, r, he⟩ := matchYear_shape h
  obtain ⟨rfl, h2⟩ : x = a ∧ y :: t = b :: c :: d :: r := by
    injection he with h1 h2; exact ⟨h1, h2⟩
  obtain ⟨rfl, rfl⟩ : y = b ∧ t = c :: d :: r := by
    injection h2 with h1 h2; exact ⟨h1, h2⟩
  simp only [matchYear, Bool.and_eq_true, Bool.or_eq_true,
    decide_eq_true_eq] at h
  rcases h.1.1.1 with ⟨_, h1⟩ | ⟨_, h1⟩
  · exact Or.inl h1
  · exact Or.inr h1

theorem matchYear_third {x y z : Char} {t : List Char}
    (h : matchYear (x :: y :: z :: t) = true) : isDigitChar z = true := by
  obtain ⟨a, b, c, d, r, he⟩ := matchYear_shape h
  obtain ⟨rfl, h2⟩ : x = a ∧ y :: z :: t = b :: c :: d :: r := by
    injection he with h1 h2; exact ⟨h1, h2⟩
  obtain ⟨rfl, h3⟩ : y = b ∧ z :: t = c :: d :: r := by
    injection h2 with h1 h2; exact ⟨h1, h2⟩
  obtain ⟨rfl, rfl⟩ : z = c ∧ t = d :: r := by
    injection h3 with h1 h2; exact ⟨h1, h2⟩
  simp only [matchYear, Bool.and_eq_true] at h
  exact h.1.1.2

theorem matchYear_fourth {x y z w : Char} {t : List Char}
    (h : matchYear (x :: y :: z :: w :: t) = true) : isDigitChar w = true := by
  simp only [matchYear, Bool.and_eq_true] at h
  exact h.1.2

theorem matchYear_nonword {x : Char} {t : List Char}
    (hx : isWordChar x = false) : matchYear (x :: t) = false := by
  by_contra hc
  rw [Bool.not_eq_false] at hc
  rcases matchYear_head hc with rfl | rfl <;> exact absurd hx (by decide)

theorem matchYear_short {l : List Char} (h : l.length ≤ 3) :
    matchYear l = false := by
  match l, h with
  | [], _ => rfl
  | [_], _ => rfl
  | [_, _], _ => rfl
  | [_, _, _], _ => rfl

theorem hasYear_short : ∀ (l : List Char), l.length ≤ 3 →
    ∀ p, hasYear p l = false := by
  intro l
  induction l with
  | nil => intro _ _; rfl
  | cons c rest ih =>
    intro hl p
    rw [hasYear, matchYear_short (by simpa using hl)]
    simp only [Bool.and_false, Bool.false_or]
    exact ih (by simp at hl ⊢; omega) (isWordChar c)

/-- The year scanner never discards a character when the previous one was
a word character: with a `true` flag, the head passes through. -/
theorem yearSub_true_cons (a : Char) (l : List Char) :
    yearSub true (a :: l) = a :: yearSub (isWordChar a) l := by
  match l with
  | b :: c :: d :: r2 => rw [yearSub]; simp
  | [] => rfl
  | [_] => rfl
  | [_, _] => rfl

theorem yearSub_short : ∀ (l : List Char), l.length ≤ 3 →
    ∀ p, yearSub p l = l := by
  intro l
  induction l with
  | nil => intro _ _; rfl
  | cons c rest ih =>
    intro hl p
    have hr := ih (by simp at hl ⊢; omega)
    match rest, hl with
    | [], _ => rfl
    | [b], _ => show c :: yearSub (isWordChar c) [b] = _; rw [hr]
    | [b, d], _ => show c :: yearSub (isWordChar c) [b, d] = _; rw [hr]

/-- Matches survive the year-substitution pass backwards: a year match
starting at a preserved character of the output corresponds to a match at
the same character of the input. -/
theorem matchYear_yearSub_cons {a : Char} {rest : List Char}
    (h : matchYear (a :: yearSub (isWordChar a) rest) = true) :
    matchYear (a :: rest) = true := by
  by_cases hlen : rest.length ≤ 3
  · rwa [yearSub_short rest hlen] at h
  · rcases rest with _ | ⟨b, _ | ⟨c, _ | ⟨d, r3⟩⟩⟩
    · simp at hlen
    · simp at hlen
    · simp at hlen
    · have ha := matchYear_head h
      have haw : isWordChar a = true := by
        rcases ha with rfl | rfl <;> decide
      rw [haw] at h
      rw [show yearSub true (b :: c :: d :: r3) =
          b :: yearSub (isWordChar b) (c :: d :: r3) from
          yearSub_true_cons b (c :: d :: r3)] at h
      have hb := matchYear_second h
      have hbw : isWordChar b = true := by
        rcases hb with rfl | rfl <;> decide
      rw [hbw, yearSub_true_cons] at h
      have hc := matchYear_third h
      have hcw : isWordChar c = true := digit_isWord hc
      rw [hcw, yearSub_true_cons] at h
      have hd := matchYear_fourth h
      have hdw : isWordChar d = true := digit_isWord hd
      rw [hdw] at h
      simp only [matchYear, Bool.and_eq_true] at h ⊢
      obtain ⟨⟨⟨hpair, hdc⟩, hdd⟩, hbound⟩ := h
      refine ⟨⟨⟨hpair, hdc⟩, hdd⟩, ?_⟩
      match r3, hbound with
      | [], _ => rfl
      | x :: t1, hbound =>
        rw [yearSub_true_cons] at hbound
        exact hbound

theorem hasYear_mono (l : List Char) (p : Bool)
    (h : hasYear false l = false) : hasYear p l = false := by
  match l with
  | [] => rfl
  | c :: rest =>
    rw [hasYear] at h ⊢
    obtain ⟨h1, h2⟩ := Bool.or_eq_false_iff.mp h
    simp only [Bool.not_false, Bool.true_and] at h1
    rw [h1, h2]
    simp

/-- After the year-substitution pass no year token matches anywhere. -/
theorem hasYear_yearSub_aux : ∀ (n : Nat) (l : List Char), l.length ≤ n →
    ∀ p, hasYear p (yearSub p l) = false := by
  intro n
  induction n with
  | zero =>
    intro l hl p
    match l, hl with
    | [], _ => rfl
  | succ n ih =>
    intro l hl p
    by_cases hlen : l.length ≤ 3
    · rw [yearSub_short l hlen]
      exact hasYear_short l hlen p
    · rcases l with _ | ⟨a, _ | ⟨b, _ | ⟨c, _ | ⟨d, r2⟩⟩⟩⟩
      · simp at hlen
      · simp at hlen
      · simp at hlen
      · simp at hlen
      · by_cases hm : (!p && matchYear (a :: b :: c :: d :: r2)) = true
        · rw [yearSub, if_pos hm]
          rw [hasYear, matchYear_nonword (x := ' ') (by decide),
            show isWordChar ' ' = false from by decide]
          simp only [Bool.and_false, Bool.false_or]
          have hmy : matchYear (a :: b :: c :: d :: r2) = true :=
            (Bool.and_eq_true_iff.mp hm).2
          have hbound := hmy
          simp only [matchYear, Bool.and_eq_true] at hbound
          match r2, hbound.2 with
          | [], _ => rfl
          | x :: t1, hb =>
            have hx : isWordChar x = false := by simpa using hb
            rw [yearSub_true_cons, hx]
            rw [hasYear, matchYear_nonword hx, hx]
            simp only [Bool.and_false, Bool.false_or]
            exact ih t1 (by simp at hl ⊢; omega) false
        · rw [yearSub, if_neg (by simpa using hm)]
          rw [hasYear]
          rw [ih (b :: c :: d :: r2) (by simp at hl ⊢; omega) (isWordChar a)]
          simp only [Bool.or_false]
          by_cases hp : p
          · simp [hp]
          · have hp2 : p = false := by simpa using hp
            subst hp2
            simp only [Bool.not_false, Bool.true_and] at hm ⊢
            by_contra hcon
            rw [Bool.not_eq_false] at hcon
            exact hm (matchYear_yearSub_cons hcon)

theorem hasYear_yearSub (l : List Char) (p : Bool) :
    hasYear p (yearSub p l) = false :=
  hasYear_yearSub_aux l.length l (Nat.le_refl _) p

/-- The collapse pass cannot shorten below the input length. -/
theorem collapseAux_length_le : ∀ (l : List Char) (inWs : Bool),
    (collapseAux inWs l).length ≤ l.length := by
  intro l
  induction l with
  | nil => intro _; simp [collapseAux]
  | cons c rest ih =>
    intro inWs
    rw [collapseAux]
    by_cases hws : isWsChar c
    · rw [if_pos hws]
      by_cases hin : inWs
      · simp only [hin, if_true, List.nil_append, List.length_cons]
        exact Nat.le_succ_of_le (ih true)
      · simp only [hin, if_false, List.singleton_append, List.length_cons,
          Bool.false_eq_true]
        exact Nat.succ_le_succ (ih true)
    · rw [if_neg hws]
      simp only [List.length_cons]
      exact Nat.succ_le_succ (ih false)

/-- A fresh collapse pass returns the empty list only on empty input. -/
theorem collapseAux_false_ne_nil (y : Char) (t : List Char) :
    collapseAux false (y :: t) ≠ [] := by
  rw [collapseAux]
  by_cases hws : isWsChar y
  · rw [if_pos hws]; simp
  · rw [if_neg hws]; simp

/-- Matches survive the collapse pass backwards. -/
theorem matchYear_collapse_cons {x : Char} {rest : List Char}
    (h : matchYear (x :: collapseAux false rest) = true) :
    matchYear (x :: rest) = true := by
  rcases rest with _ | ⟨b, _ | ⟨c, _ | ⟨d, r3⟩⟩⟩
  · exact absurd h (by simp [collapseAux, matchYear])
  · have hlen : (x :: collapseAux false [b]).length ≤ 3 := by
      have := collapseAux_length_le [b] false
      simp at this ⊢
      omega
    exact absurd h (by rw [matchYear_short hlen]; simp)
  · have hlen : (x :: collapseAux false [b, c]).length ≤ 3 := by
      have := collapseAux_length_le [b, c] false
      simp at this ⊢
      omega
    exact absurd h (by rw [matchYear_short hlen]; simp)
  · rw [collapseAux] at h
    by_cases hb : isWsChar b
    · rw [if_pos hb] at h
      simp only [Bool.false_eq_true, if_false, List.singleton_append] at h
      rcases matchYear_second h with h9 | h0
      · exact absurd h9 (by decide)
      · exact absurd h0 (by decide)
    · rw [if_neg hb] at h
      rw [collapseAux] at h
      by_cases hc : isWsChar c
      · rw [if_pos hc] at h
        simp only [Bool.false_eq_true, if_false, List.singleton_append] at h
        have := matchYear_third h
        exact absurd this (by decide)
      · rw [if_neg hc] at h
        rw [collapseAux] at h
        by_cases hd : isWsChar d
        · rw [if_pos hd] at h
          simp only [Bool.false_eq_true, if_false, List.singleton_append] at h
          have := matchYear_fourth h
          exact absurd this (by decide)
        · rw [if_neg hd] at h
          simp only [matchYear, Bool.and_eq_true] at h ⊢
          obtain ⟨⟨⟨hpair, hdc⟩, hdd⟩, hbound⟩ := h
          refine ⟨⟨⟨hpair, hdc⟩, hdd⟩, ?_⟩
          match r3, hbound with
          | [], _ => rfl
          | y :: t1, hbound =>
            by_cases hy : isWsChar y
            · simpa using ws_not_word hy
            · rw [collapseAux, if_neg hy] at hbound
              exact hbound

/-- No new year token appears after the whitespace-collapse pass. -/
theorem hasYear_collapseAux : ∀ (l : List Char) (p inWs : Bool),
    hasYear p l = false → hasYear p (collapseAux inWs l) = false := by
  intro l
  induction l with
  | nil => intro p inWs _; rfl
  | cons c rest ih =>
    intro p inWs h
    rw [hasYear] at h
    obtain ⟨h1, h2⟩ := Bool.or_eq_false_iff.mp h
    by_cases hws : isWsChar c
    · have hcw : isWordChar c = false := ws_not_word hws
      rw [hcw] at h2
      rw [collapseAux, if_pos hws]
      by_cases hin : inWs
      · simp only [hin, if_true, List.nil_append]
        exact hasYear_mono _ p (ih false true h2)
      · simp only [hin, if_false, List.singleton_append, Bool.false_eq_true]
        rw [hasYear, matchYear_nonword (x := ' ') (by decide),
          show isWordChar ' ' = false from by decide]
        simp only [Bool.and_false, Bool.false_or]
        exact ih false true h2
    · rw [collapseAux, if_neg hws]
      rw [hasYear]
      rw [ih (isWordChar c) false h2]
      simp only [Bool.or_false]
      by_cases hp : p
      · simp [hp]
      · have hp2 : p = false := by simpa using hp
        subst hp2
        simp only [Bool.not_false, Bool.true_and] at h1 ⊢
        by_contra hcon
        rw [Bool.not_eq_false] at hcon
        rw [matchYear_collapse_cons hcon] at h1
        simp at h1

/-- Leading-whitespace removal preserves the absence of year tokens. -/
theorem hasYear_dropWhile (l : List Char) (h : hasYear false l = false) :
    hasYear false (l.dropWhile isWsChar) = false := by
  induction l with
  | nil => simpa using h
  | cons c rest ih =>
    rw [hasYear] at h
    obtain ⟨h1, h2⟩ := Bool.or_eq_false_iff.mp h
    rw [List.dropWhile_cons]
    by_cases hws : isWsChar c
    · rw [if_pos hws]
      rw [ws_not_word hws] at h2
      exact ih h2
    · rw [if_neg hws]
      rw [hasYear]
      simp only [Bool.not_false, Bool.true_and] at h1
      rw [h1, h2]
      simp

/-- A year match survives appending whitespace. -/
theorem matchYear_append_ws {m w : List Char}
    (hw : ∀ x ∈ w, isWsChar x = true) (h : matchYear m = true) :
    matchYear (m ++ w) = true := by
  obtain ⟨x, y, z, u, t, rfl⟩ := matchYear_shape h
  simp only [List.cons_append]
  simp only [matchYear, Bool.and_eq_true] at h ⊢
  obtain ⟨⟨⟨hpair, hdc⟩, hdd⟩, hbound⟩ := h
  refine ⟨⟨⟨hpair, hdc⟩, hdd⟩, ?_⟩
  match t, hbound with
  | [], _ =>
    simp only [List.nil_append]
    match w, hw with
    | [], _ => rfl
    | v :: w1, hw =>
      have hv : isWsChar v = true := hw v (List.mem_cons_self v w1)
      simpa using ws_not_word hv
  | a :: t1, hbound =>
    simpa using hbound

/-- Removing an all-whitespace suffix preserves the absence of year
tokens. -/
theorem hasYear_append_ws : ∀ (m : List Char) (p : Bool) (w : List Char),
    (∀ x ∈ w, isWsChar x = true) → hasYear p (m ++ w) = false →
    hasYear p m = false := by
  intro m
  induction m with
  | nil => intro p w _ _; rfl
  | cons c m1 ih =>
    intro p w hw h
    rw [List.cons_append, hasYear] at h
    obtain ⟨h1, h2⟩ := Bool.or_eq_false_iff.mp h
    rw [hasYear]
    apply Bool.or_eq_false_iff.mpr
    refine ⟨?_, ih (isWordChar c) w hw h2⟩
    by_cases hp : p
    · simp [hp]
    · have hp2 : p = false := by simpa using hp
      subst hp2
      simp only [Bool.not_false, Bool.true_and] at h1 ⊢
      by_contra hcon
      rw [Bool.not_eq_false] at hcon
      have := matchYear_append_ws hw hcon
      rw [List.cons_append] at this
      rw [this] at h1
      simp at h1

/-- Every list splits as its trailing-trim plus an all-`p` suffix. -/
theorem dropTrailing_decomp (p : Char → Bool) (l : List Char) :
    ∃ w, l = dropTrailing p l ++ w ∧ ∀ x ∈ w, p x = true := by
  refine ⟨(l.reverse.takeWhile p).reverse, ?_, ?_⟩
  · conv_lhs => rw [← l.reverse_reverse,
      ← List.takeWhile_append_dropWhile (p := p) (l := l.reverse)]
    rw [List.reverse_append]
    rfl
  · intro x hx
    rw [List.mem_reverse] at hx
    exact List.mem_takeWhile_imp hx

/-- Stripping preserves the absence of year tokens. -/
theorem hasYear_stripStr (l : List Char) (h : hasYear false l = false) :
    hasYear false (stripStr l) = false := by
  unfold stripStr
  obtain ⟨w, hdecomp, hw⟩ := dropTrailing_decomp isWsChar (l.dropWhile isWsChar)
  have hd := hasYear_dropWhile l h
  rw [hdecomp] at hd
  exact hasYear_append_ws _ false w hw hd

/-! ## C6: conditional year removal -/

set_option maxHeartbeats 1000000 in
/-- C6: when no season/episode pattern is detected, `_prepare_search` does
not apply the year substitution (the query is the plain pipeline, so year
tokens such as `1999` are preserved, as in `The.Matrix.1999`); when a
pattern is detected, the year substitution runs and no 4-digit year-like
token `19xx`/`20xx` with word boundaries remains anywhere in the query, as
in `Doctor.Who.2005.S01E01`. -/
theorem year_token_handling :
    (∀ stem, findSeasonEpisode stem = none →
      prepareSearch stem = ⟨normalizeQuery false stem, none, none⟩) ∧
    (∀ stem r, findSeasonEpisode stem = some r →
      hasYear false (prepareSearch stem).query = false) ∧
    prepareSearch ("The.Matrix.1999".data) =
      ⟨"The Matrix 1999".data, none, none⟩ ∧
    prepareSearch ("Doctor.Who.2005.S01E01".data) =
      ⟨"Doctor Who".data, some 1, some 1⟩ := by
  refine ⟨?_, ?_, by decide, by decide⟩
  · intro stem h
    rw [prepareSearch, h]
  · intro stem r h
    obtain ⟨start, stop, s, e⟩ := r
    rw [prepareSearch, h]
    show hasYear false (normalizeQuery true
      (trimTrailingSeps (removeSpan stem start stop))) = false
    unfold normalizeQuery
    simp only [if_true]
    exact hasYear_stripStr _ (hasYear_collapseAux _ false false
      (hasYear_yearSub _ false))

/-- C6 witness: the year is preserved for `The.Matrix.1999` (no
season/episode detected) and no year token survives for
`Doctor.Who.2005.S01E01` (pattern detected at span `[16, 22)`). -/
theorem year_token_handling_witness :
    prepareSearch ("The.Matrix.1999".data) =
      ⟨normalizeQuery false ("The.Matrix.1999".data), none, none⟩ ∧
    hasYear false (prepareSearch ("Doctor.Who.2005.S01E01".data)).query =
      false :=
  ⟨year_token_handling.1 ("The.Matrix.1999".data) (by decide),
    year_token_handling.2.1 ("Doctor.Who.2005.S01E01".data)
      (16, 22, 1, 1) (by decide)⟩

/-! ## C3: span removal and season/episode extraction -/

/-- C3: whenever a season/episode pattern matches the stem (first pattern
in priority order, leftmost occurrence), `_prepare_search` removes exactly
the matched span `[start, stop)`, trims the trailing separator run of the
result, normalises, and returns the pattern's season and episode numbers;
in particular `The.Expanse.S02E03.1080p` parses to query `The Expanse`
with season 2 and episode 3. -/
theorem parse_strips_matched_span (stem : List Char) (start stop s e : Nat)
    (h : findSeasonEpisode stem = some (start, stop, s, e)) :
    prepareSearch stem =
      ⟨normalizeQuery true (trimTrailingSeps (removeSpan stem start stop)),
        some s, some e⟩ ∧
    prepareSearch ("The.Expanse.S02E03.1080p".data) =
      ⟨"The Expanse".data, some 2, some 3⟩ := by
  constructor
  · rw [prepareSearch, h]
  · decide

/-- C3 witness: the match of `The.Expanse.S02E03.1080p` is the span
`[12, 18)` with season 2 and episode 3, and the theorem instantiated
there yields the example query. -/
theorem parse_strips_matched_span_witness :
    findSeasonEpisode ("The.Expanse.S02E03.1080p".data) =
      some (12, 18, 2, 3) ∧
    prepareSearch ("The.Expanse.S02E03.1080p".data) =
      ⟨normalizeQuery true (trimTrailingSeps
        (removeSpan ("The.Expanse.S02E03.1080p".data) 12 18)),
        some 2, some 3⟩ ∧
    prepareSearch ("The.Expanse.S02E03.1080p".data) =
      ⟨"The Expanse".data, some 2, some 3⟩ :=
  ⟨by decide,
    (parse_strips_matched_span ("The.Expanse.S02E03.1080p".data) 12 18 2 3
      (by decide)).1,
    (parse_strips_matched_span ("The.Expanse.S02E03.1080p".data) 12 18 2 3
      (by decide)).2⟩

/-! ## Character-set and spacing lemmas (for C9) -/

theorem mem_dotToSpace {c : Char} {l : List Char} (h : c ∈ dotToSpace l) :
    c = ' ' ∨ (c ∈ l ∧ c ≠ '.') := by
  obtain ⟨a, ha, heq⟩ := List.mem_map.mp h
  by_cases hd : a = '.'
  · subst hd
    simp only [if_pos rfl] at heq
    exact Or.inl heq.symm
  · rw [if_neg hd] at heq
    subst heq
    exact Or.inr ⟨ha, hd⟩

theorem mem_invalidSubAux : ∀ (l : List Char) (inBad : Bool) {c : Char},
    c ∈ invalidSubAux inBad l → c = ' ' ∨ (c ∈ l ∧ isAllowedChar c = true) := by
  intro l
  induction l with
  | nil => intro inBad c h; simp [invalidSubAux] at h
  | cons a rest ih =>
    intro inBad c h
    rw [invalidSubAux] at h
    by_cases hall : isAllowedChar a
    · rw [if_pos hall] at h
      rcases List.mem_cons.mp h with rfl | h2
      · exact Or.inr ⟨List.mem_cons_self _ _, hall⟩
      · rcases ih false h2 with h3 | ⟨h3, h4⟩
        · exact Or.inl h3
        · exact Or.inr ⟨List.mem_cons_of_mem _ h3, h4⟩
    · rw [if_neg hall] at h
      rcases List.mem_append.mp h with h2 | h2
      · left
        by_cases hin : inBad
        · simp [hin] at h2
        · simp only [hin, if_false, Bool.false_eq_true, List.mem_singleton] at h2
          exact h2
      · rcases ih true h2 with h3 | ⟨h3, h4⟩
        · exact Or.inl h3
        · exact Or.inr ⟨List.mem_cons_of_mem _ h3, h4⟩

theorem mem_collapseAux : ∀ (l : List Char) (inWs : Bool) {c : Char},
    c ∈ collapseAux inWs l → c = ' ' ∨ c ∈ l := by
  intro l
  induction l with
  | nil => intro inWs c h; simp [collapseAux] at h
  | cons a rest ih =>
    intro inWs c h
    rw [collapseAux] at h
    by_cases hws : isWsChar a
    · rw [if_pos hws] at h
      rcases List.mem_append.mp h with h2 | h2
      · left
        by_cases hin : inWs
        · simp [hin] at h2
        · simp only [hin, if_false, Bool.false_eq_true, List.mem_singleton] at h2
          exact h2
      · rcases ih true h2 with h3 | h3
        · exact Or.inl h3
        · exact Or.inr (List.mem_cons_of_mem _ h3)
    · rw [if_neg hws] at h
      rcases List.mem_cons.mp h with rfl | h2
      · exact Or.inr (List.mem_cons_self _ _)
      · rcases ih false h2 with h3 | h3
        · exact Or.inl h3
        · exact Or.inr (List.mem_cons_of_mem _ h3)

/-- Tokens produced by the splitter are nonempty, whitespace-free, and
made of input (or accumulator) characters. -/
theorem splitWsAux_tokens : ∀ (l cur : List Char),
    (∀ c ∈ cur, isWsChar c = false) →
    ∀ t ∈ splitWsAux cur l, t ≠ [] ∧ (∀ c ∈ t, isWsChar c = false) ∧
      (∀ c ∈ t, c ∈ cur ∨ c ∈ l) := by
  intro l
  induction l with
  | nil =>
    intro cur hcur t ht
    rw [splitWsAux] at ht
    by_cases hc : cur = []
    · simp [hc] at ht
    · rw [if_neg hc] at ht
      rcases List.mem_singleton.mp ht with rfl
      exact ⟨hc, hcur, fun c hcm => Or.inl hcm⟩
  | cons a rest ih =>
    intro cur hcur t ht
    rw [splitWsAux] at ht
    by_cases hws : isWsChar a
    · rw [if_pos hws] at ht
      rcases List.mem_append.mp ht with h2 | h2
      · by_cases hc : cur = []
        · simp [hc] at h2
        · rw [if_neg hc] at h2
          rcases List.mem_singleton.mp h2 with rfl
          exact ⟨hc, hcur, fun c hcm => Or.inl hcm⟩
      · obtain ⟨h3, h4, h5⟩ := ih [] (by simp) t h2
        refine ⟨h3, h4, fun c hcm => ?_⟩
        rcases h5 c hcm with h6 | h6
        · simp at h6
        · exact Or.inr (List.mem_cons_of_mem _ h6)
    · rw [if_neg hws] at ht
      have hcur2 : ∀ c ∈ cur ++ [a], isWsChar c = false := by
        intro c hcm
        rcases List.mem_append.mp hcm with h2 | h2
        · exact hcur c h2
        · rcases List.mem_singleton.mp h2 with rfl
          simpa using hws
      obtain ⟨h3, h4, h5⟩ := ih (cur ++ [a]) hcur2 t ht
      refine ⟨h3, h4, fun c hcm => ?_⟩
      rcases h5 c hcm with h6 | h6
      · rcases List.mem_append.mp h6 with h7 | h7
        · exact Or.inl h7
        · rcases List.mem_singleton.mp h7 with rfl
          exact Or.inr (List.mem_cons_self _ _)
      · exact Or.inr (List.mem_cons_of_mem _ h6)

theorem mem_stripRevTokens : ∀ (ts : List (List Char)) {t : List Char},
    t ∈ stripRevTokens ts → t ∈ ts := by
  intro ts
  induction ts with
  | nil => intro t h; simp [stripRevTokens] at h
  | cons u rest ih =>
    intro t h
    rw [stripRevTokens] at h
    by_cases hs : tokenStrippable u
    · rw [if_pos hs] at h
      exact List.mem_cons_of_mem _ (ih h)
    · rw [if_neg hs] at h
      exact h

theorem mem_joinSpace : ∀ (ts : List (List Char)) {c : Char},
    c ∈ joinSpace ts → c = ' ' ∨ ∃ t ∈ ts, c ∈ t := by
  intro ts
  induction ts with
  | nil => intro c h; simp [joinSpace] at h
  | cons t rest ih =>
    intro c h
    match rest, h with
    | [], h => exact Or.inr ⟨t, List.mem_singleton.mpr rfl, h⟩
    | t2 :: ts1, h =>
      rw [joinSpace] at h
      rcases List.mem_append.mp h with h2 | h2
      · exact Or.inr ⟨t, List.mem_cons_self _ _, h2⟩
      · rcases List.mem_cons.mp h2 with rfl | h3
        · exact Or.inl rfl
        · rcases ih h3 with h4 | ⟨u, hu, hcu⟩
          · exact Or.inl h4
          · exact Or.inr ⟨u, List.mem_cons_of_mem _ hu, hcu⟩

theorem mem_dropTrailing {p : Char → Bool} {l : List Char} {c : Char}
    (h : c ∈ dropTrailing p l) : c ∈ l := by
  obtain ⟨w, hdec, _⟩ := dropTrailing_decomp p l
  rw [hdec]
  exact List.mem_append.mpr (Or.inl h)

theorem mem_stripStr {l : List Char} {c : Char} (h : c ∈ stripStr l) :
    c ∈ l :=
  (List.dropWhile_sublist isWsChar).subset (mem_dropTrailing h)

/-- A character with the code of the dot is the dot. -/
theorem char_eq_of_toNat {c d : Char} (h : c.toNat = d.toNat) : c = d :=
  Char.ext (UInt32.ext h)

theorem validQueryChar_of_allowed {c : Char} (hall : isAllowedChar c = true)
    (hdot : c ≠ '.') : validQueryChar c = true := by
  have hne : c.toNat ≠ 46 := by
    intro h
    exact hdot (char_eq_of_toNat (by simpa using h))
  simp only [isAllowedChar, Bool.or_eq_true, decide_eq_true_eq] at hall
  simp only [validQueryChar, Bool.or_eq_true, decide_eq_true_eq]
  tauto

/-- Character set after the class substitution: allowed and not a dot. -/
theorem valid_after_invalidSub {b : List Char} {c : Char}
    (h : c ∈ invalidSubSpace (dotToSpace b)) : validQueryChar c = true := by
  rcases mem_invalidSubAux (dotToSpace b) false h with rfl | ⟨h2, h3⟩
  · decide
  · rcases mem_dotToSpace h2 with rfl | ⟨_, h4⟩
    · decide
    · exact validQueryChar_of_allowed h3 h4

/-- Character set of the pipeline before the optional year pass. -/
theorem valid_after_stripTokens {b : List Char} {c : Char}
    (h : c ∈ preQuery b) : validQueryChar c = true := by
  unfold preQuery stripTrailingReleaseTokens at h
  rcases mem_joinSpace _ h with rfl | ⟨t, ht, hct⟩
  · decide
  · rw [List.mem_reverse] at ht
    have ht2 := mem_stripRevTokens _ ht
    rw [List.mem_reverse] at ht2
    obtain ⟨_, _, hsub⟩ := splitWsAux_tokens _ [] (by simp) t ht2
    rcases hsub c hct with h2 | h2
    · simp at h2
    · rcases mem_collapseAux _ false h2 with rfl | h3
      · decide
      · exact valid_after_invalidSub h3

theorem mem_yearSub : ∀ (n : Nat) (l : List Char), l.length ≤ n →
    ∀ (p : Bool) {c : Char}, c ∈ yearSub p l → c = ' ' ∨ c ∈ l := by
  intro n
  induction n with
  | zero =>
    intro l hl p c h
    match l, hl with
    | [], _ => simp [yearSub] at h
  | succ n ih =>
    intro l hl p c h
    by_cases hlen : l.length ≤ 3
    · rw [yearSub_short l hlen] at h
      exact Or.inr h
    · rcases l with _ | ⟨a, _ | ⟨b, _ | ⟨d, _ | ⟨e, r2⟩⟩⟩⟩
      · simp at hlen
      · simp at hlen
      · simp at hlen
      · simp at hlen
      · rw [yearSub] at h
        by_cases hm : (!p && matchYear (a :: b :: d :: e :: r2)) = true
        · rw [if_pos hm] at h
          rcases List.mem_cons.mp h with rfl | h2
          · exact Or.inl rfl
          · rcases ih r2 (by simp at hl ⊢; omega) true h2 with h3 | h3
            · exact Or.inl h3
            · refine Or.inr ?_
              simp only [List.mem_cons] at h3 ⊢
              tauto
        · rw [if_neg (by simpa using hm)] at h
          rcases List.mem_cons.mp h with rfl | h2
          · exact Or.inr (List.mem_cons_self _ _)
          · rcases ih (b :: d :: e :: r2) (by simp at hl ⊢; omega)
              (isWordChar a) h2 with h3 | h3
            · exact Or.inl h3
            · exact Or.inr (List.mem_cons_of_mem _ h3)

/-- Character set of the final query, both with and without the year pass. -/
theorem valid_normalizeQuery (sy : Bool) (b : List Char) {c : Char}
    (h : c ∈ normalizeQuery sy b) : validQueryChar c = true := by
  unfold normalizeQuery at h
  have h2 := mem_stripStr h
  by_cases hsy : sy
  · subst hsy
    simp only [if_true] at h2
    rcases mem_collapseAux _ false h2 with rfl | h3
    · decide
    · rcases mem_yearSub (preQuery b).length _ (Nat.le_refl _) false h3
        with rfl | h4
      · decide
      · exact valid_after_stripTokens h4
  · have hsy2 : sy = false := by simpa using hsy
    subst hsy2
    simp only [Bool.false_eq_true, if_false] at h2
    exact valid_after_stripTokens h2

/-! ## Spacing lemmas (for C9) -/

theorem noDoubleWs_cons {a : Char} {l : List Char}
    (ha : isWsChar a = false) (h : noDoubleWs l = true) :
    noDoubleWs (a :: l) = true := by
  match l with
  | [] => rfl
  | b :: t =>
    rw [noDoubleWs]
    rw [ha] at *
    simp only [Bool.false_and, Bool.not_false, Bool.true_and]
    exact h

theorem noDoubleWs_tail {a : Char} {l : List Char}
    (h : noDoubleWs (a :: l) = true) : noDoubleWs l = true := by
  match l with
  | [] => rfl
  | b :: t =>
    rw [noDoubleWs] at h
    exact (Bool.and_eq_true_iff.mp h).2

theorem noDoubleWs_append_left : ∀ (a b : List Char),
    noDoubleWs (a ++ b) = true → noDoubleWs a = true := by
  intro a
  induction a with
  | nil => intro b _; rfl
  | cons x a1 ih =>
    intro b h
    match a1, h with
    | [], _ => rfl
    | y :: t, h =>
      simp only [List.cons_append] at h
      rw [noDoubleWs] at h
      obtain ⟨h1, h2⟩ := Bool.and_eq_true_iff.mp h
      rw [noDoubleWs]
      apply Bool.and_eq_true_iff.mpr
      refine ⟨h1, ih b ?_⟩
      simpa only [List.cons_append] using h2

theorem noDoubleWs_append_right : ∀ (a b : List Char),
    noDoubleWs (a ++ b) = true → noDoubleWs b = true := by
  intro a
  induction a with
  | nil => intro b h; simpa using h
  | cons x a1 ih =>
    intro b h
    rw [List.cons_append] at h
    exact ih b (noDoubleWs_tail h)

theorem noDoubleWs_stripStr {l : List Char} (h : noDoubleWs l = true) :
    noDoubleWs (stripStr l) = true := by
  unfold stripStr
  have h2 : noDoubleWs (l.dropWhile isWsChar) = true := by
    conv at h => rw [← List.takeWhile_append_dropWhile (p := isWsChar) (l := l)]
    exact noDoubleWs_append_right _ _ h
  obtain ⟨w, hdec, _⟩ := dropTrailing_decomp isWsChar (l.dropWhile isWsChar)
  rw [hdec] at h2
  exact noDoubleWs_append_left _ _ h2

theorem noDoubleWs_of_wsFree : ∀ (l : List Char),
    (∀ c ∈ l, isWsChar c = false) → noDoubleWs l = true := by
  intro l
  induction l with
  | nil => intro _; rfl
  | cons a t ih =>
    intro h
    exact noDoubleWs_cons (h a (List.mem_cons_self _ _))
      (ih (fun c hc => h c (List.mem_cons_of_mem _ hc)))

/-- The head emitted by a mid-run collapse pass is never whitespace. -/
theorem collapseAux_true_head : ∀ (l : List Char) {c : Char}
    {t : List Char}, collapseAux true l = c :: t → isWsChar c = false := by
  intro l
  induction l with
  | nil => intro c t h; simp [collapseAux] at h
  | cons a rest ih =>
    intro c t h
    rw [collapseAux] at h
    by_cases hws : isWsChar a
    · rw [if_pos hws] at h
      simp only [if_true, List.nil_append] at h
      exact ih h
    · rw [if_neg hws] at h
      obtain ⟨rfl, -⟩ : a = c ∧ collapseAux false rest = t := by
        injection h with h1 h2; exact ⟨h1, h2⟩
      simpa using hws

theorem noDoubleWs_collapseAux : ∀ (l : List Char) (inWs : Bool),
    noDoubleWs (collapseAux inWs l) = true := by
  intro l
  induction l with
  | nil => intro _; rfl
  | cons a rest ih =>
    intro inWs
    rw [collapseAux]
    by_cases hws : isWsChar a
    · rw [if_pos hws]
      by_cases hin : inWs
      · simp only [hin, if_true, List.nil_append]
        exact ih true
      · simp only [hin, if_false, Bool.false_eq_true, List.singleton_append]
        rcases hc : collapseAux true rest with _ | ⟨c, t⟩
        · rfl
        · rw [noDoubleWs]
          apply Bool.and_eq_true_iff.mpr
          refine ⟨?_, by rw [← hc]; exact ih true⟩
          rw [collapseAux_true_head rest hc]
          simp
    · rw [if_neg hws]
      exact noDoubleWs_cons (by simpa using hws) (ih false)

/-- Gluing a whitespace-free list in front preserves `noDoubleWs`. -/
theorem noDoubleWs_wsFree_append : ∀ (t r : List Char),
    (∀ c ∈ t, isWsChar c = false) → noDoubleWs r = true →
    noDoubleWs (t ++ r) = true := by
  intro t
  induction t with
  | nil => intro r _ h; simpa using h
  | cons x t1 ih =>
    intro r h hr
    rw [List.cons_append]
    exact noDoubleWs_cons (h x (List.mem_cons_self _ _))
      (ih r (fun c hc => h c (List.mem_cons_of_mem _ hc)) hr)

/-- The head of a joined nonempty token list is the head of its first
token. -/
theorem joinSpace_head : ∀ (t : List Char) (ts : List (List Char))
    {c : Char} {r : List Char}, joinSpace (t :: ts) = c :: r →
    t ≠ [] → c ∈ t := by
  intro t ts c r h hne
  match ts, h with
  | [], h =>
    rw [show joinSpace [t] = t from rfl] at h
    rw [h]
    exact List.mem_cons_self _ _
  | t2 :: ts1, h =>
    rw [joinSpace] at h
    match t, hne, h with
    | x :: t1, _, h =>
      rw [List.cons_append] at h
      obtain ⟨rfl, -⟩ : x = c ∧ t1 ++ ' ' :: joinSpace (t2 :: ts1) = r := by
        injection h with h1 h2; exact ⟨h1, h2⟩
      exact List.mem_cons_self _ _

theorem noDoubleWs_joinSpace : ∀ (ts : List (List Char)),
    (∀ t ∈ ts, t ≠ [] ∧ ∀ c ∈ t, isWsChar c = false) →
    noDoubleWs (joinSpace ts) = true := by
  intro ts
  induction ts with
  | nil => intro _; rfl
  | cons t rest ih =>
    intro h
    obtain ⟨hne, hfree⟩ := h t (List.mem_cons_self _ _)
    have hrest := fun u hu => h u (List.mem_cons_of_mem _ hu)
    match rest with
    | [] =>
      rw [show joinSpace [t] = t from rfl]
      exact noDoubleWs_of_wsFree t hfree
    | t2 :: ts1 =>
      rw [joinSpace]
      apply noDoubleWs_wsFree_append t _ hfree
      have hj := ih hrest
      rcases hc : joinSpace (t2 :: ts1) with _ | ⟨c, r⟩
      · rfl
      · rw [noDoubleWs]
        apply Bool.and_eq_true_iff.mpr
        constructor
        · have hc2 : c ∈ t2 := joinSpace_head t2 ts1 hc
            (hrest t2 (List.mem_cons_self _ _)).1
          have := (hrest t2 (List.mem_cons_self _ _)).2 c hc2
          rw [this]
          simp
        · rw [← hc]
          exact hj

/-- After a final strip the head character is never whitespace. -/
theorem head_dropWhile_not (p : Char → Bool) : ∀ (l : List Char) {c : Char},
    (l.dropWhile p).head? = some c → p c = false := by
  intro l
  induction l with
  | nil => intro c h; simp at h
  | cons a rest ih =>
    intro c h
    rw [List.dropWhile_cons] at h
    by_cases hp : p a
    · rw [if_pos hp] at h
      exact ih h
    · rw [if_neg hp] at h
      simp only [List.head?_cons, Option.some_inj] at h
      rw [← h]
      simpa using hp

theorem head_stripStr {l : List Char} {c : Char}
    (h : (stripStr l).head? = some c) : isWsChar c = false := by
  unfold stripStr at h
  obtain ⟨w, hdec, _⟩ := dropTrailing_decomp isWsChar (l.dropWhile isWsChar)
  apply head_dropWhile_not isWsChar l
  rw [hdec]
  rcases hs : dropTrailing isWsChar (l.dropWhile isWsChar) with _ | ⟨x, t⟩
  · rw [hs] at h; simp at h
  · rw [hs] at h
    simp only [List.head?_cons, Option.some_inj] at h
    rw [List.cons_append]
    simp [h]

theorem getLast_stripStr {l : List Char} {c : Char}
    (h : (stripStr l).getLast? = some c) : isWsChar c = false := by
  unfold stripStr dropTrailing at h
  rw [List.getLast?_reverse] at h
  exact head_dropWhile_not isWsChar _ h

/-! ## C9: the query character and spacing invariant -/

/-- C9: for every input stem the parsed query contains only ASCII letters
and digits, underscore, hyphen and space — in particular no dot — and has
no two adjacent whitespace characters, no leading space and no trailing
space. -/
theorem query_character_invariant (stem : List Char) :
    (∀ c ∈ (prepareSearch stem).query, validQueryChar c = true) ∧
    (∀ c ∈ (prepareSearch stem).query, c ≠ '.') ∧
    noDoubleWs (prepareSearch stem).query = true ∧
    (∀ c, (prepareSearch stem).query.head? = some c → c ≠ ' ') ∧
    (∀ c, (prepareSearch stem).query.getLast? = some c → c ≠ ' ') := by
  have hq : ∃ sy b, (prepareSearch stem).query = normalizeQuery sy b := by
    rcases hfind : findSeasonEpisode stem with _ | ⟨start, stop, s, e⟩
    · exact ⟨false, stem, by simp only [prepareSearch, hfind]⟩
    · exact ⟨true, trimTrailingSeps (removeSpan stem start stop),
        by simp only [prepareSearch, hfind]⟩
  obtain ⟨sy, b, hb⟩ := hq
  rw [hb]
  have hX : normalizeQuery sy b = stripStr
      (if sy then collapseWs (yearSub false (preQuery b)) else preQuery b) :=
    rfl
  have hnd : noDoubleWs
      (if sy then collapseWs (yearSub false (preQuery b)) else preQuery b) =
      true := by
    by_cases hsy : sy
    · subst hsy
      simp only [if_true]
      exact noDoubleWs_collapseAux _ false
    · have hsy2 : sy = false := by simpa using hsy
      subst hsy2
      simp only [Bool.false_eq_true, if_false]
      unfold preQuery stripTrailingReleaseTokens
      apply noDoubleWs_joinSpace
      intro t ht
      rw [List.mem_reverse] at ht
      have ht2 := mem_stripRevTokens _ ht
      rw [List.mem_reverse] at ht2
      obtain ⟨h1, h2, _⟩ := splitWsAux_tokens _ [] (by simp) t ht2
      exact ⟨h1, h2⟩
  have hvalid : ∀ c ∈ normalizeQuery sy b, validQueryChar c = true :=
    fun c hc => valid_normalizeQuery sy b hc
  refine ⟨hvalid, ?_, ?_, ?_, ?_⟩
  · intro c hc hdot
    subst hdot
    exact absurd (hvalid _ hc) (by decide)
  · rw [hX]
    exact noDoubleWs_stripStr hnd
  · intro c hc
    rw [hX] at hc
    have hw := head_stripStr hc
    intro hsp
    subst hsp
    exact absurd hw (by decide)
  · intro c hc
    rw [hX] at hc
    have hw := getLast_stripStr hc
    intro hsp
    subst hsp
    exact absurd hw (by decide)

/-- C9 witness: the invariant applied to `The.Matrix.1999`, whose query is
`The Matrix 1999`, at the member `T`, the head `T` and the last `9`. -/
theorem query_character_invariant_witness :
    validQueryChar 'T' = true ∧ (('T' : Char) ≠ '.') ∧
    noDoubleWs (prepareSearch ("The.Matrix.1999".data)).query = true ∧
    (('T' : Char) ≠ ' ') ∧ (('9' : Char) ≠ ' ') :=
  ⟨(query_character_invariant ("The.Matrix.1999".data)).1 'T' (by decide),
    (query_character_invariant ("The.Matrix.1999".data)).2.1 'T' (by decide),
    (query_character_invariant ("The.Matrix.1999".data)).2.2.1,
    (query_character_invariant ("The.Matrix.1999".data)).2.2.2.1 'T'
      (by decide),
    (query_character_invariant ("The.Matrix.1999".data)).2.2.2.2 '9'
      (by decide)⟩

end DeeBee
